import Mathlib

/-!
# Verification of the compas_quad grammar pipeline

Shallow embedding of the string-generation, feature-fingerprint and
batch-accounting logic of the compas_quad repository
(`src/compas_quad/grammar/{features,markov,string_generation}.py` and
`examples/99_lizard.py`), together with theorems settling the frozen
claims about it.

Modelling conventions:
* Python floats are modelled as exact rationals (`ℚ`).
* Python strings are modelled as `List Char`.
* The process-wide pseudo-random streams are modelled as functions
  `ℕ → ℚ` handing out the successive results of `random()` (for the
  `random` module) resp. of the numpy categorical sampler; a generator
  that seeds a stream makes the stream a function of the seed, a
  generator that does not seed a stream receives whatever ambient
  stream the process happens to carry.
* `scipy.stats.multinomial.rvs(1, p)` followed by `.index(1)` is
  modelled as a categorical draw: the first index whose cumulative
  probability exceeds the uniform draw (numpy assigns the remaining
  mass to the last category).
* The mesh, the Lizard automaton and the smoothing solver are opaque
  external collaborators of `examples/99_lizard.py`; a string attempt
  is therefore modelled by the outcome the collaborators report for it,
  and the driver's bookkeeping (which is what the accounting claims are
  about) is embedded faithfully over those outcomes.
-/

namespace CompasQuad

/-! ## features.py -/

/-- The fixed bin centers `TOPO_INDICES = [-1.0, -0.75, ..., 1.0]`. -/
def topoIndices : List ℚ := [-1, -3/4, -1/2, -1/4, 0, 1/4, 1/2, 3/4, 1]

/-- `histogram(data, bins, include_outliers=True)` from `features.py`.
Per-bin counts are `counter.get(topo_index) or 0`, i.e. the number of
occurrences of the bin center in the data.  The outlier pass iterates
over `set(counter.keys()) - set(bins)` — the *distinct* data values not
equal to any bin center — and adds `1` per distinct value that is below
`bins[0]` (`elif`: else above `bins[-1]`).  `bins[0]`/`bins[-1]` are
only evaluated on the nonempty `TOPO_INDICES` in the repository; the
`headD`/`getLastD` defaults are never exercised there. -/
def histogram (data : List ℚ) (bins : List ℚ) (includeOutliers : Bool) : List ℕ :=
  let counts := bins.map (fun b => data.count b)
  if includeOutliers then
    let keys := data.dedup.filter (fun k => decide (k ∉ bins))
    let countLow := (keys.filter (fun k => decide (k < bins.headD 0))).length
    let countHigh := (keys.filter (fun k => decide (¬ k < bins.headD 0 ∧ bins.getLastD 0 < k))).length
    [countLow] ++ counts ++ [countHigh]
  else
    counts

/-! ## features.py : feature keys

`features_key(features, precision="d")` renders each feature through
`"{0},".format(int(x))`, joins, and drops the trailing separator;
`revert_features_key` splits on `","` and applies `float` to each part.
Integer rendering (`str(int)`) and `float()` on the integer literals it
produces are modelled below; `parseInt?` returns `none` exactly where
`float()` would raise `ValueError`. -/

/-- Decimal rendering of a natural number, most significant digit
first; `str(0) = "0"`. -/
def renderNat (n : ℕ) : List Char :=
  if n = 0 then ['0'] else (Nat.digits 10 n).reverse.map Nat.digitChar

/-- Python `str(int)`: an optional leading minus sign. -/
def renderInt (z : ℤ) : List Char :=
  if z < 0 then '-' :: renderNat z.natAbs else renderNat z.natAbs

/-- `features_key` at default precision `"d"` on an integer-valued
feature vector: concatenate `str(int(f)) + ","` and drop the final
character. -/
def featuresKeyD (v : List ℤ) : List Char :=
  ((v.map (fun z => renderInt z ++ [','])).flatten).dropLast

/-- Numeric value of a decimal digit character. -/
def charDigit (c : Char) : ℕ := c.toNat - 48

/-- Parse a nonempty all-digit string back to a natural number. -/
def parseNat (cs : List Char) : ℕ :=
  Nat.ofDigits 10 ((cs.map charDigit).reverse)

/-- Model of Python `float()` restricted to the integer literals the
`"d"` formatter emits: an optional minus sign followed by digits;
`none` where `float()` raises. -/
def parseInt? (cs : List Char) : Option ℤ :=
  match cs with
  | [] => none
  | c :: rest =>
      if c = '-' then
        if rest ≠ [] ∧ rest.all Char.isDigit then some (-(parseNat rest : ℤ)) else none
      else
        if (c :: rest).all Char.isDigit then some ((parseNat (c :: rest) : ℤ)) else none

/-- Python `str.split(",")`: empty parts are preserved and
`"".split(",") == [""]`. -/
def splitOnComma : List Char → List (List Char)
  | [] => [[]]
  | c :: cs =>
    let r := splitOnComma cs
    if c = ',' then [] :: r
    else
      match r with
      | [] => [[c]]
      | p :: ps => (c :: p) :: ps

/-- `float()` applied to one comma-separated part, as a rational. -/
def parseFloat? (cs : List Char) : Option ℚ :=
  (parseInt? cs).map (fun z => (z : ℚ))

/-- `revert_features_key`: split on `","` and parse every part;
`none` models the `ValueError` that `float()` raises on a malformed
part (in particular on the empty string). -/
def revertFeaturesKey (key : List Char) : Option (List ℚ) :=
  (splitOnComma key).mapM parseFloat?

/-! ## string_generation.py : brute force

`itertools.product(characters, repeat=length)` enumerates tuples with
the leftmost position varying slowest: the tuples starting with the
first character come first, each block ordered recursively. -/

/-- One level of `itertools.product`: every character of `cs` prepended
to every tail, block by block in the order of `cs`. -/
def prependAll (cs : List Char) (tails : List (List Char)) : List (List Char) :=
  match cs with
  | [] => []
  | c :: rest => tails.map (fun t => c :: t) ++ prependAll rest tails

/-- `string_generation_brute(characters, length)`, as the list of the
yielded strings in order. -/
def stringGenerationBrute (chars : List Char) : ℕ → List (List Char)
  | 0 => [[]]
  | n + 1 => prependAll chars (stringGenerationBrute chars n)

/-! ## string_generation.py : seeded uniform-random generation -/

/-- The inner scan of `string_generation_random`:
`for i in range(len(characters)): if x < sum(ratios[:i+1]): break`,
returning the chosen index, or `none` when no prefix sum exceeds the
draw (then the iteration appends nothing). -/
def pickIndex? (nChars : ℕ) (ratios : List ℚ) (x : ℚ) : Option ℕ :=
  (List.range nChars).find? (fun i => decide (x < (ratios.take (i + 1)).sum))

/-- The character appended for one uniform draw, if any. -/
def pickSymbol? (chars : List Char) (ratios : List ℚ) (x : ℚ) : Option Char :=
  (pickIndex? chars.length ratios x).bind (fun i => chars.get? i)

/-- One string of `string_generation_random`: `length` iterations, each
consuming one draw (`x = random()` is drawn before the scan, so a draw
is consumed even when no symbol is appended). `k` is the position in
the seeded draw stream. -/
def randomString (chars : List Char) (ratios : List ℚ) (xs : ℕ → ℚ) : ℕ → ℕ → List Char
  | _, 0 => []
  | k, len + 1 =>
    match pickSymbol? chars ratios (xs k) with
    | some c => c :: randomString chars ratios xs (k + 1) len
    | none => randomString chars ratios xs (k + 1) len

/-- The default ratios `[1.0 / len(characters)] * len(characters)`
(the code divides by zero on an empty alphabet; all uses have a
nonempty one). -/
def uniformRatios (chars : List Char) : List ℚ :=
  List.replicate chars.length (1 / chars.length)

/-- `if not ratios: ratios = [1.0 / len(characters)] * len(characters)`:
`None` and the empty list are both falsy and replaced by the uniform
default. -/
def effectiveRatios (chars : List Char) (ratiosOpt : Option (List ℚ)) : List ℚ :=
  match ratiosOpt with
  | some (r :: rest) => r :: rest
  | _ => uniformRatios chars

/-- `string_generation_random(characters, number, length, ratios, seed)`.
`random.seed(seed)` makes the draw stream `xs` a function of the seed.
Every iteration consumes exactly `length` draws, so the `i`-th string
reads the stream at offset `i * length`. -/
def stringGenerationRandom (chars : List Char) (number len : ℕ)
    (ratiosOpt : Option (List ℚ)) (xs : ℕ → ℚ) : List (List Char) :=
  (List.range number).map
    (fun i => randomString chars (effectiveRatios chars ratiosOpt) xs (i * len) len)

/-! ## string_generation.py : structured generation

The hand-authored state machine of `string_generation_structured`.
Note that the function receives a `characters` argument but never
reads it: the emitted symbols `'t'`, `'p'`, `'a'` are hard-coded. -/

/-- The per-string loop of `string_generation_structured`.  `rem + 1`
positions remain (`rem = 0` is the final one), `poly` is
`polyedge_length`, `j` indexes the seeded draw stream.  Returns the
emitted characters, the final `polyedge_length`, and the next stream
position (the force-close branch `continue`s before drawing). -/
def structGo (xs : ℕ → ℚ) : ℕ → ℕ → ℕ → List Char × ℕ × ℕ
  | j, 0, poly => ([], poly, j)
  | j, rem + 1, poly =>
    if rem = 0 ∧ poly ≠ 0 then (['a'], 0, j)
    else
      let x := xs j
      if poly = 0 then
        if x < 33/100 then
          ('t' :: (structGo xs (j + 1) rem 0).1, (structGo xs (j + 1) rem 0).2)
        else if x < 67/100 then
          ('p' :: (structGo xs (j + 1) rem 0).1, (structGo xs (j + 1) rem 0).2)
        else
          ('a' :: (structGo xs (j + 1) rem 1).1, (structGo xs (j + 1) rem 1).2)
      else if poly = 1 then
        if x < 50/100 then
          ('t' :: (structGo xs (j + 1) rem 2).1, (structGo xs (j + 1) rem 2).2)
        else
          ('p' :: (structGo xs (j + 1) rem 1).1, (structGo xs (j + 1) rem 1).2)
      else
        if x < 2/5 then
          ('t' :: (structGo xs (j + 1) rem (poly + 1)).1, (structGo xs (j + 1) rem (poly + 1)).2)
        else if x < 4/5 then
          ('p' :: (structGo xs (j + 1) rem poly).1, (structGo xs (j + 1) rem poly).2)
        else
          ('a' :: (structGo xs (j + 1) rem 0).1, (structGo xs (j + 1) rem 0).2)

/-- One string of `string_generation_structured`, read from stream
position `j`. -/
def structuredString (xs : ℕ → ℚ) (len : ℕ) (j : ℕ) : List Char :=
  (structGo xs j len 0).1

/-- The outer loop of `string_generation_structured`: `number` strings
off the seeded stream, consuming draws sequentially. -/
def structuredStringsGo (xs : ℕ → ℚ) (len : ℕ) : ℕ → ℕ → List (List Char)
  | 0, _ => []
  | n + 1, j =>
    (structGo xs j len 0).1 :: structuredStringsGo xs len n (structGo xs j len 0).2.2

/-- `string_generation_structured(characters, number, length, seed)`
(the `characters` argument is unused in the source). -/
def stringGenerationStructured (number len : ℕ) (xs : ℕ → ℚ) : List (List Char) :=
  structuredStringsGo xs len number 0

/-! ## markov.py -/

/-- Model of `list(multinomial.rvs(1, p)).index(1)` for one uniform
draw `x`: the first index whose cumulative probability exceeds `x`;
numpy assigns any remaining mass to the last category. -/
def sampleIndex (p : List ℚ) (x : ℚ) : ℕ :=
  match (List.range p.length).find? (fun i => decide (x < (p.take (i + 1)).sum)) with
  | some i => i
  | none => p.length - 1

/-- `normalize_rows` on a single row: divide by the row sum. -/
def normalizeRow (r : List ℚ) : List ℚ := r.map (fun a => a / r.sum)

/-- The `for _ in range(sequence_length - 1)` loop of `markov_sequence`:
sample from the row of the last state, stop on the stop state.  Returns
the appended states and the next position in the numpy draw stream. -/
def markovLoop (pT : List (List ℚ)) (stop : Option ℕ) (xs : ℕ → ℚ) :
    ℕ → ℕ → ℕ → List ℕ × ℕ
  | 0, _, k => ([], k)
  | fuel + 1, cur, k =>
    let s := sampleIndex (pT.getD cur []) (xs k)
    if stop = some s then ([], k + 1)
    else
      (s :: (markovLoop pT stop xs fuel s (k + 1)).1,
        (markovLoop pT stop xs fuel s (k + 1)).2)

/-- `markov_sequence(p_init, p_transition, sequence_length, stop_state)`:
the produced list of states and the next stream position. -/
def markovSeq (pI : List ℚ) (pT : List (List ℚ)) (len : ℕ) (stop : Option ℕ)
    (xs : ℕ → ℚ) (k : ℕ) : List ℕ × ℕ :=
  let s0 := sampleIndex pI (xs k)
  if stop = some s0 then ([], k + 1)
  else
    (s0 :: (markovLoop pT stop xs (len - 1) s0 (k + 1)).1,
      (markovLoop pT stop xs (len - 1) s0 (k + 1)).2)

/-- `sequence_to_grammar_string(sequence, rules)` with
`rules = {i: characters[i]}`; a state beyond the alphabet would raise
`KeyError` in Python and is mapped to a placeholder here (unreachable
under the closure hypotheses). -/
def seqToString (chars : List Char) (seq : List ℕ) : List Char :=
  seq.map (fun s => chars.getD s ' ')

/-- The sentence loop of `string_generation_markov`: `number` words of
`length` states each, consuming the numpy stream sequentially. -/
def markovStringsGo (chars : List Char) (pI : List ℚ) (pT : List (List ℚ))
    (len : ℕ) (xs : ℕ → ℚ) : ℕ → ℕ → List (List Char)
  | 0, _ => []
  | n + 1, k =>
    seqToString chars (markovSeq pI pT len none xs k).1 ::
      markovStringsGo chars pI pT len xs n (markovSeq pI pT len none xs k).2

/-- `string_generation_markov(characters, number, length, p_init,
p_transition, seed)` with an explicit `p_init` (when `p_init is None`
the source computes it with `equilibrium_distribution`, modelled
separately below).  `np.random.seed(seed)` makes `xs` a function of
the seed. -/
def stringGenerationMarkov (chars : List Char) (number len : ℕ)
    (pI : List ℚ) (pT : List (List ℚ)) (xs : ℕ → ℚ) : List (List Char) :=
  markovStringsGo chars (normalizeRow pI) (pT.map normalizeRow) len xs number 0

/-- The word rewrite `word = 'a' + word[:-2] + 'a'` of
`string_generation_markov_budget`. -/
def budgetWrap (w : List Char) : List Char :=
  'a' :: (w.dropLast.dropLast ++ ['a'])

/-- The word loop of one sentence of `string_generation_markov_budget`.
`rem + 1` words remain (`rem = 0` is the last one, `j == num_words - 1`
in the source).  Each word consumes the numpy stream (`xs`, position
`k`) for its states and exactly one draw (`x = random()`) from the
*`random`-module* stream (`py`, position `m`), which the source never
seeds. -/
def budgetSentence (chars : List Char) (pI : List ℚ) (pT : List (List ℚ))
    (numChars : ℕ) (xs py : ℕ → ℚ) : ℕ → ℕ → ℕ → List Char × ℕ × ℕ
  | 0, k, m => ([], k, m)
  | rem + 1, k, m =>
    let k' := (markovSeq pI pT numChars none xs k).2
    let w := seqToString chars (markovSeq pI pT numChars none xs k).1
    let w' := if 50/100 < py m ∨ rem = 0 then budgetWrap w else w
    (w' ++ (budgetSentence chars pI pT numChars xs py rem k' (m + 1)).1,
      (budgetSentence chars pI pT numChars xs py rem k' (m + 1)).2)

/-- The sentence loop of `string_generation_markov_budget`. -/
def budgetStringsGo (chars : List Char) (pI : List ℚ) (pT : List (List ℚ))
    (numWords numChars : ℕ) (xs py : ℕ → ℚ) : ℕ → ℕ → ℕ → List (List Char)
  | 0, _, _ => []
  | n + 1, k, m =>
    (budgetSentence chars pI pT numChars xs py numWords k m).1 ::
      budgetStringsGo chars pI pT numWords numChars xs py n
        (budgetSentence chars pI pT numChars xs py numWords k m).2.1
        (budgetSentence chars pI pT numChars xs py numWords k m).2.2

/-- `string_generation_markov_budget(characters, num_sentences,
num_words, num_characters, p_init, p_transition, seed)` with an
explicit `p_init`.  `np.random.seed(seed)` fixes `xs`; the
`random`-module stream `py` is *not* seeded by the function and is
whatever ambient stream the process carries. -/
def stringGenerationMarkovBudget (chars : List Char)
    (numSentences numWords numChars : ℕ) (pI : List ℚ) (pT : List (List ℚ))
    (xs py : ℕ → ℚ) : List (List Char) :=
  budgetStringsGo chars (normalizeRow pI) (pT.map normalizeRow)
    numWords numChars xs py numSentences 0 0

/-! ## markov.py : equilibrium_distribution

`equilibrium_distribution(p_transition)` builds
`A = np.append(p_transition.T - eye(n), ones((1, n)), axis=0)`,
`b = [0, ..., 0, 1]`, and returns `np.linalg.solve(Aᵀ·A, Aᵀ·b)` —
the solution of the normal equations of the least-squares system
`A·x = b`.  Floating arithmetic is modelled exactly over `ℚ`;
`np.linalg.solve` on an invertible system returns
`det(M)⁻¹ · adj(M) · rhs`. -/

/-- The augmented constraint matrix `A`: the rows of `Pᵀ - I` followed
by a row of ones. -/
def augmentedMatrix (n : ℕ) (P : Matrix (Fin n) (Fin n) ℚ) :
    Matrix (Fin n ⊕ Unit) (Fin n) ℚ :=
  Matrix.of fun i j =>
    Sum.elim (fun i' => P.transpose i' j - (if i' = j then 1 else 0)) (fun _ => 1) i

/-- The right-hand side `b = [0] * n_states + [1]`. -/
def constraintVec (n : ℕ) : (Fin n ⊕ Unit) → ℚ :=
  Sum.elim (fun _ => 0) (fun _ => 1)

/-- The normal-equation matrix `np.transpose(A).dot(A)`. -/
def normalMatrix (n : ℕ) (P : Matrix (Fin n) (Fin n) ℚ) : Matrix (Fin n) (Fin n) ℚ :=
  (augmentedMatrix n P).transpose * augmentedMatrix n P

/-- `equilibrium_distribution(p_transition)`: the solution of
`(Aᵀ·A) x = Aᵀ·b` (`np.linalg.solve` raises on a singular system; the
formula below is its output on the invertible ones, which the theorems
require through a determinant hypothesis). -/
def equilibriumDistribution (n : ℕ) (P : Matrix (Fin n) (Fin n) ℚ) : Fin n → ℚ :=
  ((normalMatrix n P).det)⁻¹ •
    ((normalMatrix n P).adjugate.mulVec
      ((augmentedMatrix n P).transpose.mulVec (constraintVec n)))

/-! ## examples/99_lizard.py : per-string outcomes and batch accounting

The mesh, the Lizard automaton, `unify_cycles`, the smoothing solver
and the manifold/boundary queries are opaque external collaborators;
what they decide for one unique string is recorded in an `Attempt`.
The driver's own control flow and bookkeeping — the `try/except`
boundaries, the failure counters, the `defaultdict(dict)` bucketing by
feature key and the deletion of emptied buckets — are embedded
faithfully over those outcomes.  `str` is an opaque string identifier;
`key` is the (quantized) feature key of the successful mesh. -/

/-- Outcome of the replay stage for one unique string: an exception in
`lizard.from_string_to_rules` (any failed rule application, including
an unknown symbol), an exception in `mesh.unify_cycles()`, or success
with the feature key computed for the resulting mesh. -/
inductive ReplayOutcome
  | failLizard
  | failUnify
  | success (key : ℕ)
deriving DecidableEq

/-- Outcome of the postprocessing stage for one successful string: an
exception in the smoothing/densification block, a failed
`is_manifold()` check, a boundary-count increase, or survival. -/
inductive PostOutcome
  | failSmooth
  | failManifold
  | failBoundary
  | ok
deriving DecidableEq

/-- One unique string of a batch together with the outcomes the
collaborators report for it (the `post` field is only read when
`replay` succeeded). -/
structure Attempt where
  str : ℕ
  replay : ReplayOutcome
  post : PostOutcome
deriving DecidableEq

/-- `true` on a successful replay. -/
def isSuccess (a : Attempt) : Bool :=
  match a.replay with
  | .success _ => true
  | _ => false

/-- The feature key of a successful attempt. -/
def attemptKey (a : Attempt) : ℕ :=
  match a.replay with
  | .success k => k
  | _ => 0

/-- State of the replay loop: `meshes`/`successful_strings` (zipped
into one list), `failed_strings`, `num_fail_lizard`, `num_fail_unify`. -/
structure ReplayState where
  successes : List Attempt
  failed : List ℕ
  numFailLizard : ℕ
  numFailUnify : ℕ
deriving DecidableEq

/-- One iteration of the `for string in unique_strings` replay loop:
each failure is caught at the string boundary, appends the offending
string to `failed_strings`, bumps its own counter and `continue`s;
otherwise the string and its mesh are appended to the success lists. -/
def replayStep (st : ReplayState) (a : Attempt) : ReplayState :=
  match a.replay with
  | .failLizard =>
      { st with failed := st.failed ++ [a.str], numFailLizard := st.numFailLizard + 1 }
  | .failUnify =>
      { st with failed := st.failed ++ [a.str], numFailUnify := st.numFailUnify + 1 }
  | .success _ =>
      { st with successes := st.successes ++ [a] }

/-- The whole replay loop over a batch of unique strings. -/
def replayAll (batch : List Attempt) : ReplayState :=
  batch.foldl replayStep ⟨[], [], 0, 0⟩

/-- Insertion into `featkey_stringmesh` (a `defaultdict(dict)`): a new
feature key opens a bucket at the end, an existing one appends to its
bucket (the strings of a batch are distinct, so the inner dict never
overwrites). -/
def addToBuckets (bs : List (ℕ × List Attempt)) (a : Attempt) :
    List (ℕ × List Attempt) :=
  match bs with
  | [] => [(attemptKey a, [a])]
  | (k, l) :: rest =>
      if k = attemptKey a then (k, l ++ [a]) :: rest
      else (k, l) :: addToBuckets rest a

/-- `featkey_stringmesh` after the grouping loop. -/
def buckets (batch : List Attempt) : List (ℕ × List Attempt) :=
  (replayAll batch).successes.foldl addToBuckets []

/-- All bucketed attempts in postprocessing order (the postprocess
loop runs over every string of every bucket). -/
def allBucketAttempts (batch : List Attempt) : List Attempt :=
  ((buckets batch).map Prod.snd).flatten

/-- Count of bucketed attempts with a given postprocess outcome. -/
def countPost (l : List Attempt) (o : PostOutcome) : ℕ :=
  l.countP (fun a => decide (a.post = o))

/-- The strings of a bucket that pass all postprocess checks (the
others are collected in `deletable` and deleted from the bucket). -/
def bucketSurvivors (l : List Attempt) : List Attempt :=
  l.filter (fun a => decide (a.post = PostOutcome.ok))

/-- `num_fail_smooth` after the postprocess loop. -/
def numFailSmoothTotal (batch : List Attempt) : ℕ :=
  countPost (allBucketAttempts batch) .failSmooth

/-- `num_fail_manifold` after the postprocess loop. -/
def numFailManifoldTotal (batch : List Attempt) : ℕ :=
  countPost (allBucketAttempts batch) .failManifold

/-- `num_fail_boundarychange` after the postprocess loop. -/
def numFailBoundaryTotal (batch : List Attempt) : ℕ :=
  countPost (allBucketAttempts batch) .failBoundary

/-- The buckets still in `featkey_stringmesh` after the
`deletable_featkeys` deletion: those with at least one survivor. -/
def survivingBuckets (batch : List Attempt) : List (ℕ × List Attempt) :=
  (buckets batch).filter (fun b => decide (bucketSurvivors b.2 ≠ []))

/-- `number_unique_meshes` (after postprocessing). -/
def numberUniqueMeshes (batch : List Attempt) : ℕ :=
  (survivingBuckets batch).length

/-- `number_unique_meshes_pre` (bucket count before postprocessing). -/
def numberUniqueMeshesPre (batch : List Attempt) : ℕ :=
  (buckets batch).length

/-- `num_lizard_strings = len(successful_strings)`. -/
def numLizardStrings (batch : List Attempt) : ℕ :=
  (replayAll batch).successes.length

/-- `num_fail_duplicated = num_lizard_strings - number_unique_meshes_pre`. -/
def numFailDuplicated (batch : List Attempt) : ℕ :=
  numLizardStrings batch - numberUniqueMeshesPre batch

/-- `sum(nums_fail)` with
`nums_fail = [num_fail_lizard, num_fail_unify, num_fail_duplicated,
num_fail_smooth, num_fail_manifold, num_fail_boundarychange]`. -/
def numsFailSum (batch : List Attempt) : ℕ :=
  (replayAll batch).numFailLizard + (replayAll batch).numFailUnify +
    numFailDuplicated batch + numFailSmoothTotal batch +
    numFailManifoldTotal batch + numFailBoundaryTotal batch

/-- The number of strings surviving the validity filter. -/
def numSurvivingStrings (batch : List Attempt) : ℕ :=
  (bucketSurvivors (allBucketAttempts batch)).length

/-! ## Specialized equations used to evaluate the embeddings -/

/-- `markovLoop` with no stop state, successor fuel. -/
theorem markovLoop_none_succ (pT : List (List ℚ)) (xs : ℕ → ℚ) (fuel cur k : ℕ) :
    markovLoop pT none xs (fuel + 1) cur k =
      ((sampleIndex (pT.getD cur []) (xs k)) ::
          (markovLoop pT none xs fuel (sampleIndex (pT.getD cur []) (xs k)) (k + 1)).1,
        (markovLoop pT none xs fuel (sampleIndex (pT.getD cur []) (xs k)) (k + 1)).2) := by
  simp [markovLoop]

/-- `markov_sequence` with no stop state never stops early. -/
theorem markovSeq_none (pI : List ℚ) (pT : List (List ℚ)) (len : ℕ) (xs : ℕ → ℚ) (k : ℕ) :
    markovSeq pI pT len none xs k =
      ((sampleIndex pI (xs k)) ::
          (markovLoop pT none xs (len - 1) (sampleIndex pI (xs k)) (k + 1)).1,
        (markovLoop pT none xs (len - 1) (sampleIndex pI (xs k)) (k + 1)).2) := by
  simp [markovSeq]

/-! ## C10 : FeatureKey faithfulness -/

/-- A decimal digit renders to a character that parses back to it. -/
theorem charDigit_digitChar : ∀ d, d < 10 → charDigit (Nat.digitChar d) = d := by
  decide

/-- A decimal digit renders to a digit character. -/
theorem digitChar_isDigit : ∀ d, d < 10 → (Nat.digitChar d).isDigit = true := by
  decide

/-- The rendering of a natural number is nonempty. -/
theorem renderNat_ne_nil (n : ℕ) : renderNat n ≠ [] := by
  rw [renderNat]
  by_cases h : n = 0
  · simp [h]
  · simp only [if_neg h]
    intro hnil
    rw [List.map_eq_nil_iff, List.reverse_eq_nil_iff] at hnil
    exact h (Nat.digits_eq_nil_iff_eq_zero.1 hnil)

/-- Every character of a rendered natural number is a decimal digit. -/
theorem renderNat_all_digits (n : ℕ) : ∀ c ∈ renderNat n, c.isDigit = true := by
  intro c hc
  rw [renderNat] at hc
  by_cases h : n = 0
  · rw [if_pos h] at hc
    simp at hc
    rw [hc]
    decide
  · rw [if_neg h] at hc
    obtain ⟨d, hd, rfl⟩ := List.mem_map.1 hc
    rw [List.mem_reverse] at hd
    exact digitChar_isDigit d (Nat.digits_lt_base (by norm_num) hd)

/-- A digit character is not a comma. -/
theorem isDigit_ne_comma {c : Char} (h : c.isDigit = true) : c ≠ ',' := by
  intro hc
  rw [hc] at h
  exact absurd h (by decide)

/-- A digit character is not a minus sign. -/
theorem isDigit_ne_minus {c : Char} (h : c.isDigit = true) : c ≠ '-' := by
  intro hc
  rw [hc] at h
  exact absurd h (by decide)

/-- Parsing inverts rendering on natural numbers. -/
theorem parseNat_renderNat (n : ℕ) : parseNat (renderNat n) = n := by
  rw [renderNat]
  by_cases h : n = 0
  · subst h
    decide
  · rw [if_neg h, parseNat, List.map_map, List.map_reverse, List.reverse_reverse]
    have hmap : (Nat.digits 10 n).map (charDigit ∘ Nat.digitChar) =
        Nat.digits 10 n := by
      have hid : ∀ d ∈ Nat.digits 10 n, (charDigit ∘ Nat.digitChar) d = id d :=
        fun d hd => charDigit_digitChar d (Nat.digits_lt_base (by norm_num) hd)
      rw [List.map_congr_left hid, List.map_id]
    rw [hmap, Nat.ofDigits_digits]

/-- Parsing inverts rendering on integers (Python
`float(str(int(z)))` recovers `z`). -/
theorem parseInt?_renderInt (z : ℤ) : parseInt? (renderInt z) = some z := by
  rw [renderInt]
  by_cases hz : z < 0
  · rw [if_pos hz, parseInt?, if_pos rfl,
      if_pos ⟨renderNat_ne_nil _, List.all_eq_true.2 (renderNat_all_digits _)⟩,
      parseNat_renderNat]
    congr 1
    have := Int.ofNat_natAbs_of_nonpos (le_of_lt hz)
    omega
  · obtain ⟨c, rest, hcons⟩ : ∃ c rest, renderNat z.natAbs = c :: rest := by
      cases hr : renderNat z.natAbs with
      | nil => exact absurd hr (renderNat_ne_nil _)
      | cons c rest => exact ⟨c, rest, rfl⟩
    rw [if_neg hz, hcons, parseInt?]
    have hdig : c.isDigit = true := by
      apply renderNat_all_digits z.natAbs
      rw [hcons]
      exact List.mem_cons_self c rest
    rw [if_neg (isDigit_ne_minus hdig)]
    have hall : (c :: rest).all Char.isDigit = true := by
      rw [← hcons]
      exact List.all_eq_true.2 (renderNat_all_digits _)
    rw [if_pos hall, ← hcons, parseNat_renderNat]
    congr 1
    omega

/-- No comma occurs in a rendered integer. -/
theorem comma_not_mem_renderInt (z : ℤ) : ',' ∉ renderInt z := by
  intro hmem
  rw [renderInt] at hmem
  by_cases hz : z < 0
  · rw [if_pos hz] at hmem
    rcases List.mem_cons.1 hmem with heq | hmem'
    · exact absurd heq (by decide)
    · exact isDigit_ne_comma (renderNat_all_digits _ _ hmem') rfl
  · rw [if_neg hz] at hmem
    exact isDigit_ne_comma (renderNat_all_digits _ _ hmem) rfl

/-- Splitting a comma-free string is the identity. -/
theorem splitOnComma_no_comma {p : List Char} (h : ',' ∉ p) :
    splitOnComma p = [p] := by
  induction p with
  | nil => rfl
  | cons c cs ih =>
    rw [splitOnComma]
    have hc : c ≠ ',' := fun hc => h (hc ▸ List.mem_cons_self c cs)
    have hcs : ',' ∉ cs := fun hm => h (List.mem_cons_of_mem c hm)
    rw [ih hcs]
    simp [hc]

/-- Splitting after a comma-free prefix peels that prefix off. -/
theorem splitOnComma_append {p : List Char} (rest : List Char) (h : ',' ∉ p) :
    splitOnComma (p ++ ',' :: rest) = p :: splitOnComma rest := by
  induction p with
  | nil => simp [splitOnComma]
  | cons c cs ih =>
    have hc : c ≠ ',' := fun hc => h (hc ▸ List.mem_cons_self c cs)
    have hcs : ',' ∉ cs := fun hm => h (List.mem_cons_of_mem c hm)
    rw [List.cons_append, splitOnComma, ih hcs]
    simp [hc]

/-- The flattened key of a nonempty vector is nonempty (every part
ends with its separator before the final strip). -/
theorem flatten_parts_ne_nil (z : ℤ) (vs : List ℤ) :
    ((z :: vs).map (fun y => renderInt y ++ [','])).flatten ≠ [] := by
  rw [List.map_cons, List.flatten_cons]
  intro hnil
  rw [List.append_eq_nil] at hnil
  have := hnil.1
  rw [List.append_eq_nil] at this
  exact absurd this.2 (by simp)

/-- The key of a singleton vector is the rendered element. -/
theorem featuresKeyD_single (z : ℤ) : featuresKeyD [z] = renderInt z := by
  rw [featuresKeyD]
  simp only [List.map_cons, List.map_nil, List.flatten_cons, List.flatten_nil,
    List.append_nil]
  exact List.dropLast_concat

/-- The key of a longer vector starts with the rendered head and a
separator. -/
theorem featuresKeyD_cons (z : ℤ) {vs : List ℤ} (h : vs ≠ []) :
    featuresKeyD (z :: vs) = renderInt z ++ ',' :: featuresKeyD vs := by
  obtain ⟨w, ws, rfl⟩ : ∃ w ws, vs = w :: ws := by
    cases vs with
    | nil => exact absurd rfl h
    | cons w ws => exact ⟨w, ws, rfl⟩
  rw [featuresKeyD, featuresKeyD, List.map_cons, List.flatten_cons,
    List.dropLast_append_of_ne_nil _ (flatten_parts_ne_nil w ws)]
  simp [List.append_assoc]

/-- Round trip: `revert_features_key` recovers the numeric values of
any nonempty integer feature vector from its default-precision key. -/
theorem revertFeaturesKey_featuresKeyD (v : List ℤ) (hv : v ≠ []) :
    revertFeaturesKey (featuresKeyD v) = some (v.map (fun z : ℤ => (z : ℚ))) := by
  induction v with
  | nil => exact absurd rfl hv
  | cons z vs ih =>
    cases vs with
    | nil =>
      rw [featuresKeyD_single, revertFeaturesKey,
        splitOnComma_no_comma (comma_not_mem_renderInt z)]
      simp [List.mapM.loop, parseFloat?, parseInt?_renderInt]
    | cons w ws =>
      rw [featuresKeyD_cons z (by simp), revertFeaturesKey,
        splitOnComma_append _ (comma_not_mem_renderInt z)]
      have ihr := ih (by simp)
      rw [revertFeaturesKey] at ihr
      rw [List.mapM_cons]
      simp only [parseFloat?, parseInt?_renderInt, Option.map_some', ihr]
      simp

/-- C10.  FeatureKey faithfulness at default (integer) precision: the
key parses back to exactly the numeric values of the vector, and two
nonempty integer feature vectors have equal keys iff they are equal —
so equal vectors give equal keys, and changing any single element
changes the key. -/
theorem features_key_faithful (v : List ℤ) (hv : v ≠ []) :
    revertFeaturesKey (featuresKeyD v) = some (v.map (fun z : ℤ => (z : ℚ))) ∧
      ∀ w : List ℤ, w ≠ [] → (featuresKeyD v = featuresKeyD w ↔ v = w) := by
  refine ⟨revertFeaturesKey_featuresKeyD v hv, ?_⟩
  intro w hw
  constructor
  · intro hkey
    have h1 := revertFeaturesKey_featuresKeyD v hv
    have h2 := revertFeaturesKey_featuresKeyD w hw
    rw [hkey, h2] at h1
    have hmap := Option.some.inj h1
    have hinj : Function.Injective (fun z : ℤ => (z : ℚ)) :=
      fun a b hab => Int.cast_injective hab
    exact (List.map_injective_iff.2 hinj hmap.symm)
  · intro heq
    rw [heq]

/-- Witness for `features_key_faithful` on the concrete vector
`[16, 33, 0, -2]` against `[16, 33, 1, -2]` (one histogram bin
changed): the key round-trips and the two keys differ. -/
theorem features_key_faithful_witness :
    (([16, 33, 0, -2] : List ℤ) ≠ [] ∧ ([16, 33, 1, -2] : List ℤ) ≠ []) ∧
      revertFeaturesKey (featuresKeyD [16, 33, 0, -2]) =
        some [(16 : ℚ), 33, 0, -2] ∧
      (featuresKeyD [16, 33, 0, -2] = featuresKeyD [16, 33, 1, -2] ↔
        ([16, 33, 0, -2] : List ℤ) = [16, 33, 1, -2]) := by
  have h1 : ([16, 33, 0, -2] : List ℤ) ≠ [] := by decide
  have h2 : ([16, 33, 1, -2] : List ℤ) ≠ [] := by decide
  obtain ⟨hr, hinj⟩ := features_key_faithful [16, 33, 0, -2] h1
  refine ⟨⟨h1, h2⟩, ?_, hinj [16, 33, 1, -2] h2⟩
  rw [hr]
  norm_num

/-! ## C6 : stationary distribution -/

/-- C6.  For every `n`-state row-stochastic transition matrix `P` for
which the normal-equation system of `equilibrium_distribution` is
solvable (`det(Aᵀ·A) ≠ 0`, otherwise `np.linalg.solve` raises) and
which admits a stationary distribution `π` (i.e. `A·π = b`, which
holds for every row-stochastic chain by Perron–Frobenius), the vector
the code computes equals `π` exactly, and therefore satisfies
`π·P = π` and `Σπ = 1` *exactly* — in particular within the claim's
`1e-6` tolerance.  Exact rational arithmetic stands in for the
float arithmetic of `np.linalg.solve`. -/
theorem equilibrium_distribution_stationary (n : ℕ)
    (P : Matrix (Fin n) (Fin n) ℚ)
    (_hrow : ∀ i, ∑ j, P i j = 1)
    (π : Fin n → ℚ)
    (hdet : (normalMatrix n P).det ≠ 0)
    (hπ : (augmentedMatrix n P).mulVec π = constraintVec n) :
    equilibriumDistribution n P = π ∧
      Matrix.vecMul (equilibriumDistribution n P) P = equilibriumDistribution n P ∧
      ∑ i, equilibriumDistribution n P i = 1 := by
  have hMx : (normalMatrix n P).mulVec (equilibriumDistribution n P) =
      (augmentedMatrix n P).transpose.mulVec (constraintVec n) := by
    rw [equilibriumDistribution, Matrix.mulVec_smul, Matrix.mulVec_mulVec,
      Matrix.mul_adjugate, Matrix.smul_mulVec_assoc, Matrix.one_mulVec,
      smul_smul, inv_mul_cancel₀ hdet, one_smul]
  have hMπ : (normalMatrix n P).mulVec π =
      (augmentedMatrix n P).transpose.mulVec (constraintVec n) := by
    rw [normalMatrix, ← Matrix.mulVec_mulVec, hπ]
  have hinj : Function.Injective ((normalMatrix n P).mulVec) :=
    Matrix.mulVec_injective_iff_isUnit.2
      ((Matrix.isUnit_iff_isUnit_det _).2 (isUnit_iff_ne_zero.2 hdet))
  have heq : equilibriumDistribution n P = π := hinj (hMx.trans hMπ.symm)
  have hstat : ∀ i, ∑ j, π j * P j i = π i := by
    intro i
    have h := congrFun hπ (Sum.inl i)
    simp only [Matrix.mulVec, Matrix.dotProduct, augmentedMatrix, constraintVec,
      Matrix.of_apply, Sum.elim_inl, Matrix.transpose_apply, sub_mul, ite_mul,
      one_mul, zero_mul, Finset.sum_sub_distrib, Finset.sum_ite_eq,
      Finset.mem_univ, if_true] at h
    have h' : ∑ j, P j i * π j = π i := by linarith
    calc ∑ j, π j * P j i = ∑ j, P j i * π j := by
          exact Finset.sum_congr rfl fun j _ => mul_comm _ _
      _ = π i := h'
  have hsum : ∑ j, π j = 1 := by
    have h := congrFun hπ (Sum.inr ())
    simp only [Matrix.mulVec, Matrix.dotProduct, augmentedMatrix, constraintVec,
      Matrix.of_apply, Sum.elim_inr, one_mul] at h
    exact h
  refine ⟨heq, ?_, ?_⟩
  · rw [heq]
    funext i
    rw [Matrix.vecMul]
    exact hstat i
  · rw [heq]
    exact hsum

/-- Witness for `equilibrium_distribution_stationary`: the claim's
symmetric 2-state chain `[[0.6, 0.4], [0.4, 0.6]]`, whose computed
equilibrium distribution is exactly `[0.5, 0.5]`. -/
theorem equilibrium_distribution_stationary_witness :
    (∀ i, ∑ j, (Matrix.of ![![3/5, 2/5], ![2/5, 3/5]] : Matrix (Fin 2) (Fin 2) ℚ) i j = 1) ∧
      (normalMatrix 2 (Matrix.of ![![3/5, 2/5], ![2/5, 3/5]])).det ≠ 0 ∧
      (augmentedMatrix 2 (Matrix.of ![![3/5, 2/5], ![2/5, 3/5]])).mulVec ![1/2, 1/2] =
        constraintVec 2 ∧
      (equilibriumDistribution 2 (Matrix.of ![![3/5, 2/5], ![2/5, 3/5]]) = ![1/2, 1/2] ∧
        Matrix.vecMul (equilibriumDistribution 2 (Matrix.of ![![3/5, 2/5], ![2/5, 3/5]]))
            (Matrix.of ![![3/5, 2/5], ![2/5, 3/5]]) =
          equilibriumDistribution 2 (Matrix.of ![![3/5, 2/5], ![2/5, 3/5]]) ∧
        ∑ i, equilibriumDistribution 2 (Matrix.of ![![3/5, 2/5], ![2/5, 3/5]]) i = 1) := by
  have hrow : ∀ i, ∑ j, (Matrix.of ![![3/5, 2/5], ![2/5, 3/5]] : Matrix (Fin 2) (Fin 2) ℚ) i j = 1 := by
    intro i
    fin_cases i <;> norm_num [Fin.sum_univ_two]
  have hdet : (normalMatrix 2 (Matrix.of ![![3/5, 2/5], ![2/5, 3/5]])).det ≠ 0 := by
    norm_num [normalMatrix, augmentedMatrix, Matrix.det_fin_two, Matrix.mul_apply,
      Fintype.sum_sum_type, Fin.sum_univ_two, Matrix.transpose_apply]
  have hπ : (augmentedMatrix 2 (Matrix.of ![![3/5, 2/5], ![2/5, 3/5]])).mulVec ![1/2, 1/2] =
      constraintVec 2 := by
    funext i
    rcases i with i | u
    · fin_cases i <;>
        norm_num [augmentedMatrix, constraintVec, Matrix.mulVec, Matrix.dotProduct,
          Fin.sum_univ_two, Matrix.transpose_apply, Matrix.vecHead, Matrix.vecTail]
    · cases u
      norm_num [augmentedMatrix, constraintVec, Matrix.mulVec, Matrix.dotProduct,
        Fin.sum_univ_two, Matrix.vecHead, Matrix.vecTail]
  exact ⟨hrow, hdet, hπ,
    equilibrium_distribution_stationary 2 (Matrix.of ![![3/5, 2/5], ![2/5, 3/5]])
      hrow ![1/2, 1/2] hdet hπ⟩

/-! ## C9 : per-string failure isolation -/

/-- Running the replay fold from any intermediate state adds exactly
the per-category counts, appended failure records and appended
successes of the remaining batch. -/
theorem foldl_replayStep_spec :
    ∀ (batch : List Attempt) (st : ReplayState),
      (batch.foldl replayStep st).numFailLizard =
          st.numFailLizard +
            batch.countP (fun a => decide (a.replay = ReplayOutcome.failLizard)) ∧
        (batch.foldl replayStep st).numFailUnify =
          st.numFailUnify +
            batch.countP (fun a => decide (a.replay = ReplayOutcome.failUnify)) ∧
        (batch.foldl replayStep st).failed =
          st.failed ++ (batch.filter (fun a => !isSuccess a)).map Attempt.str ∧
        (batch.foldl replayStep st).successes =
          st.successes ++ batch.filter isSuccess := by
  intro batch
  induction batch with
  | nil => intro st; simp
  | cons a t ih =>
    intro st
    rw [List.foldl_cons]
    obtain ⟨ih1, ih2, ih3, ih4⟩ := ih (replayStep st a)
    rw [List.countP_cons, List.countP_cons, List.filter_cons, List.filter_cons]
    cases ha : a.replay with
    | failLizard =>
      have hstep : replayStep st a =
          { st with
            failed := st.failed ++ [a.str]
            numFailLizard := st.numFailLizard + 1 } := by
        rw [replayStep, ha]
      rw [hstep] at ih1 ih2 ih3 ih4 ⊢
      have hsucc : isSuccess a = false := by rw [isSuccess, ha]
      refine ⟨?_, ?_, ?_, ?_⟩
      · rw [ih1]
        simp [ha]
        omega
      · rw [ih2]
        simp [ha]
      · rw [ih3]
        simp [hsucc]
      · rw [ih4]
        simp [hsucc]
    | failUnify =>
      have hstep : replayStep st a =
          { st with
            failed := st.failed ++ [a.str]
            numFailUnify := st.numFailUnify + 1 } := by
        rw [replayStep, ha]
      rw [hstep] at ih1 ih2 ih3 ih4 ⊢
      have hsucc : isSuccess a = false := by rw [isSuccess, ha]
      refine ⟨?_, ?_, ?_, ?_⟩
      · rw [ih1]
        simp [ha]
      · rw [ih2]
        simp [ha]
        omega
      · rw [ih3]
        simp [hsucc]
      · rw [ih4]
        simp [hsucc]
    | success key =>
      have hstep : replayStep st a = { st with successes := st.successes ++ [a] } := by
        rw [replayStep, ha]
      rw [hstep] at ih1 ih2 ih3 ih4 ⊢
      have hsucc : isSuccess a = true := by rw [isSuccess, ha]
      refine ⟨?_, ?_, ?_, ?_⟩
      · rw [ih1]
        simp [ha]
      · rw [ih2]
        simp [ha]
      · rw [ih3]
        simp [hsucc]
      · rw [ih4]
        simp [hsucc]

/-- Inserting one successful attempt into the feature-key buckets adds
exactly that attempt to the bucketed multiset. -/
theorem addToBuckets_countP (p : Attempt → Bool) (a : Attempt) :
    ∀ bs : List (ℕ × List Attempt),
      ((((addToBuckets bs a).map Prod.snd).flatten).countP p) =
        (((bs.map Prod.snd).flatten).countP p) + (if p a then 1 else 0) := by
  intro bs
  induction bs with
  | nil => simp [addToBuckets, List.countP_cons]
  | cons b rest ih =>
    obtain ⟨k, l⟩ := b
    rw [addToBuckets]
    by_cases hk : k = attemptKey a
    · rw [if_pos hk]
      simp [List.countP_append, List.countP_cons]
      omega
    · rw [if_neg hk]
      simp only [List.map_cons, List.flatten_cons, List.countP_append, ih]
      omega

/-- Grouping a list of successes into buckets preserves all
per-predicate counts. -/
theorem foldl_addToBuckets_countP (p : Attempt → Bool) :
    ∀ (ss : List Attempt) (bs : List (ℕ × List Attempt)),
      ((((ss.foldl addToBuckets bs)).map Prod.snd).flatten).countP p =
        (((bs.map Prod.snd).flatten).countP p) + ss.countP p := by
  intro ss
  induction ss with
  | nil => intro bs; simp
  | cons a t ih =>
    intro bs
    rw [List.foldl_cons, ih (addToBuckets bs a), addToBuckets_countP,
      List.countP_cons]
    omega

/-- The postprocess loop visits exactly the successful attempts. -/
theorem allBucketAttempts_countP (batch : List Attempt) (p : Attempt → Bool) :
    (allBucketAttempts batch).countP p = ((replayAll batch).successes).countP p := by
  rw [allBucketAttempts, buckets, foldl_addToBuckets_countP]
  simp

/-- Each attempt has exactly one replay fate. -/
theorem replay_partition (l : List Attempt) :
    l.countP (fun a => decide (a.replay = ReplayOutcome.failLizard)) +
        l.countP (fun a => decide (a.replay = ReplayOutcome.failUnify)) +
        l.countP isSuccess = l.length := by
  induction l with
  | nil => simp
  | cons a t ih =>
    rw [List.countP_cons, List.countP_cons, List.countP_cons, List.length_cons]
    cases ha : a.replay <;> simp [isSuccess, ha] <;> omega

/-- Each successful attempt has exactly one postprocess fate. -/
theorem post_partition (l : List Attempt) :
    l.countP (fun a => decide (a.post = PostOutcome.failSmooth)) +
        l.countP (fun a => decide (a.post = PostOutcome.failManifold)) +
        l.countP (fun a => decide (a.post = PostOutcome.failBoundary)) +
        l.countP (fun a => decide (a.post = PostOutcome.ok)) = l.length := by
  induction l with
  | nil => simp
  | cons a t ih =>
    rw [List.countP_cons, List.countP_cons, List.countP_cons, List.countP_cons,
      List.length_cons]
    cases ha : a.post <;> simp [ha] <;> omega

/-- C9.  Per-string failure isolation in the batch driver: every
unique string receives exactly one replay fate, each replay failure
bumps exactly its own counter and appends exactly the offending string
to `failed_strings`; every successful string is postprocessed exactly
once (the buckets partition the successes) and receives exactly one
postprocess fate counted by its own counter; and the five failure
counters together with the surviving strings partition the whole
batch, so no failure aborts the run and no string is counted twice. -/
theorem per_string_failure_isolation (batch : List Attempt) :
    ((replayAll batch).numFailLizard =
        batch.countP (fun a => decide (a.replay = ReplayOutcome.failLizard)) ∧
      (replayAll batch).numFailUnify =
        batch.countP (fun a => decide (a.replay = ReplayOutcome.failUnify)) ∧
      (replayAll batch).failed =
        (batch.filter (fun a => !isSuccess a)).map Attempt.str ∧
      (replayAll batch).successes = batch.filter isSuccess) ∧
    (numFailSmoothTotal batch =
        (batch.filter isSuccess).countP (fun a => decide (a.post = PostOutcome.failSmooth)) ∧
      numFailManifoldTotal batch =
        (batch.filter isSuccess).countP (fun a => decide (a.post = PostOutcome.failManifold)) ∧
      numFailBoundaryTotal batch =
        (batch.filter isSuccess).countP (fun a => decide (a.post = PostOutcome.failBoundary))) ∧
    ((replayAll batch).numFailLizard + (replayAll batch).numFailUnify +
        numLizardStrings batch = batch.length ∧
      numFailSmoothTotal batch + numFailManifoldTotal batch +
        numFailBoundaryTotal batch + numSurvivingStrings batch =
        numLizardStrings batch ∧
      (replayAll batch).numFailLizard + (replayAll batch).numFailUnify +
        numFailSmoothTotal batch + numFailManifoldTotal batch +
        numFailBoundaryTotal batch + numSurvivingStrings batch = batch.length) := by
  obtain ⟨h1, h2, h3, h4⟩ := foldl_replayStep_spec batch ⟨[], [], 0, 0⟩
  have hrAll : replayAll batch = batch.foldl replayStep ⟨[], [], 0, 0⟩ := rfl
  rw [hrAll]
  simp only [List.nil_append, Nat.zero_add] at h1 h2 h3 h4
  have hsmooth : numFailSmoothTotal batch =
      (batch.filter isSuccess).countP (fun a => decide (a.post = PostOutcome.failSmooth)) := by
    rw [numFailSmoothTotal, countPost, allBucketAttempts_countP, hrAll, h4]
  have hmani : numFailManifoldTotal batch =
      (batch.filter isSuccess).countP (fun a => decide (a.post = PostOutcome.failManifold)) := by
    rw [numFailManifoldTotal, countPost, allBucketAttempts_countP, hrAll, h4]
  have hbound : numFailBoundaryTotal batch =
      (batch.filter isSuccess).countP (fun a => decide (a.post = PostOutcome.failBoundary)) := by
    rw [numFailBoundaryTotal, countPost, allBucketAttempts_countP, hrAll, h4]
  have hsurv : numSurvivingStrings batch =
      (batch.filter isSuccess).countP (fun a => decide (a.post = PostOutcome.ok)) := by
    rw [numSurvivingStrings, bucketSurvivors, ← List.countP_eq_length_filter,
      allBucketAttempts_countP, hrAll, h4]
  have hlizlen : numLizardStrings batch = (batch.filter isSuccess).length := by
    rw [numLizardStrings, hrAll, h4]
  have hsucccount : (batch.filter isSuccess).length = batch.countP isSuccess :=
    (List.countP_eq_length_filter _ _).symm
  refine ⟨⟨h1, h2, h3, h4⟩, ⟨hsmooth, hmani, hbound⟩, ?_, ?_, ?_⟩
  · rw [h1, h2, hlizlen, hsucccount]
    exact replay_partition batch
  · rw [hsmooth, hmani, hbound, hsurv, hlizlen]
    exact post_partition (batch.filter isSuccess)
  · rw [h1, h2, hsmooth, hmani, hbound, hsurv]
    have hpost := post_partition (batch.filter isSuccess)
    have hrep := replay_partition batch
    rw [hsucccount] at hpost
    omega

/-! ## C1 : histogram conservation -/

/-- C1.  The conservation identity
`Σ(bin counts) + overflow_low + overflow_high == number_of_vertices`
fails on the code: the outlier pass of `histogram` iterates over the
*distinct* outlier values (`set(counter.keys()) - set(bins)`) and adds
`1` per value instead of its multiplicity, and a value that is off-grid
but inside `[bins[0], bins[-1]]` is counted in no bucket at all.  For
the two below-range samples `[-2.0, -2.0]` the histogram totals `1`,
and for the single in-range off-center sample `[0.1]` it totals `0`. -/
theorem histogram_conservation_fails_on_code :
    (histogram [-2, -2] topoIndices true).sum = 1 ∧
      ([-2, -2] : List ℚ).length = 2 ∧
      (histogram [1/10] topoIndices true).sum = 0 ∧
      ([1/10] : List ℚ).length = 1 := by
  refine ⟨?_, rfl, ?_, rfl⟩ <;>
    norm_num [histogram, topoIndices, List.dedup_cons_of_mem,
      List.dedup_cons_of_not_mem, List.dedup_nil]

/-! ## C2 : generator determinism -/

/-- C2.  `string_generation_markov_budget` is not deterministic in
`(parameters, seed)`: `np.random.seed(seed)` fixes the numpy stream
that drives the Markov words, but the word-type draw `x = random()`
comes from the `random`-module generator, which the function never
seeds.  With identical parameters (alphabet `"tp"`, one sentence of
two one-state words, `p_init = [0.5, 0.5]`,
`p_transition = [[0.6, 0.4], [0.4, 0.6]]`) and the identical seeded
numpy stream, two ambient `random`-module streams (all draws `0`
versus all draws `1`) yield different sentences
(`"taa"` versus `"aaaa"`). -/
theorem markov_budget_not_deterministic :
    stringGenerationMarkovBudget ['t', 'p'] 1 2 1 [1/2, 1/2]
        [[3/5, 2/5], [2/5, 3/5]] (fun _ => 0) (fun _ => 0) ≠
      stringGenerationMarkovBudget ['t', 'p'] 1 2 1 [1/2, 1/2]
        [[3/5, 2/5], [2/5, 3/5]] (fun _ => 0) (fun _ => 1) := by
  unfold stringGenerationMarkovBudget
  norm_num [budgetStringsGo, budgetSentence, markovSeq_none, markovLoop, sampleIndex,
    normalizeRow, seqToString, budgetWrap, List.range_succ]

/-! ## C4 : batch accounting identities -/

/-- C4.  The first identity
`successful + failed == unique_strings_attempted` holds (it is the
asserted sanity check), but the Validity-Filter identity
`Σ(failure-category counts) + surviving_meshes == unique_strings`
— the assertion the source disabled with `# TODO: Fix assertion` —
fails: failure categories are counted per *string* while surviving
meshes are counted per *feature-key bucket*.  In a batch of two unique
strings that replay onto the same feature key, where one string fails
smoothing and the other survives, the left-hand side evaluates to
`num_fail_duplicated (1) + num_fail_smooth (1) + surviving buckets (1)
= 3` against `2` unique strings. -/
theorem validity_filter_accounting_fails_on_code :
    (replayAll [⟨0, .success 7, .failSmooth⟩, ⟨1, .success 7, .ok⟩]).successes.length +
        (replayAll [⟨0, .success 7, .failSmooth⟩, ⟨1, .success 7, .ok⟩]).failed.length = 2 ∧
      numsFailSum [⟨0, .success 7, .failSmooth⟩, ⟨1, .success 7, .ok⟩] +
        numberUniqueMeshes [⟨0, .success 7, .failSmooth⟩, ⟨1, .success 7, .ok⟩] = 3 ∧
      ([⟨0, .success 7, .failSmooth⟩, ⟨1, .success 7, .ok⟩] : List Attempt).length = 2 := by
  decide

/-! ## C3 : alphabet closure, counterexample -/

/-- C3, counterexample.  Alphabet closure fails as stated:
`string_generation_structured` never reads its `characters` argument
and emits the hard-coded symbols `'t'`, `'p'`, `'a'`.  Configured with
the alphabet `{'x','y'}` (any first draw below `0.33`), it yields the
string `"t"`, whose symbol is not in the alphabet. -/
theorem structured_emits_outside_alphabet :
    stringGenerationStructured 1 1 (fun _ => 0) = [['t']] ∧
      't' ∉ (['x', 'y'] : List Char) := by
  refine ⟨?_, by decide⟩
  norm_num [stringGenerationStructured, structuredStringsGo, structGo]

/-! ## C7 : uniform-random generation, counterexample -/

/-- C7, counterexample.  With a positive weight vector summing to
`0.99` ("near 1") and a draw of `0.9975`, the inner scan finds no
index with `x < sum(ratios[:i+1])`, appends nothing, and the yielded
string has `0` symbols instead of `length = 1`. -/
theorem random_string_shorter_than_length :
    stringGenerationRandom ['t', 'p'] 1 1 (some [49/100, 1/2])
        (fun _ => 399/400) = [[]] ∧
      (0 : ℚ) < 49/100 ∧ (0 : ℚ) < 1/2 ∧ (49/100 + 1/2 : ℚ) = 99/100 ∧
      (0 : ℚ) ≤ 399/400 ∧ (399/400 : ℚ) < 1 ∧
      ([] : List Char).length ≠ 1 := by
  refine ⟨?_, by norm_num, by norm_num, by norm_num, by norm_num, by norm_num, by decide⟩
  unfold stringGenerationRandom
  simp only [List.range_succ, List.range_zero, List.map_append, List.map_cons,
    List.map_nil, List.nil_append]
  norm_num [randomString, pickSymbol?, pickIndex?, effectiveRatios, List.range_succ]

/-! ## C3 : alphabet closure -/

/-- Block decomposition of one `itertools.product` level. -/
theorem mem_prependAll {cs : List Char} {ts : List (List Char)} {s : List Char} :
    s ∈ prependAll cs ts ↔ ∃ c ∈ cs, ∃ t ∈ ts, s = c :: t := by
  induction cs with
  | nil => simp [prependAll]
  | cons c rest ih =>
    simp only [prependAll, List.mem_append, List.mem_map, ih, List.mem_cons]
    constructor
    · rintro (⟨t, ht, rfl⟩ | ⟨d, hd, t, ht, rfl⟩)
      · exact ⟨c, Or.inl rfl, t, ht, rfl⟩
      · exact ⟨d, Or.inr hd, t, ht, rfl⟩
    · rintro ⟨d, hd | hd, t, ht, rfl⟩
      · exact Or.inl ⟨t, ht, by rw [hd]⟩
      · exact Or.inr ⟨d, hd, t, ht, rfl⟩

/-- The categorical sampler returns an index below any bound that
dominates the distribution's length, provided the bound is positive. -/
theorem sampleIndex_lt (p : List ℚ) (x : ℚ) {n : ℕ} (hp : p.length ≤ n)
    (hn : 0 < n) : sampleIndex p x < n := by
  rw [sampleIndex]
  cases hfind : List.find? (fun i => decide (x < (p.take (i + 1)).sum)) (List.range p.length) with
  | none =>
    show p.length - 1 < n
    omega
  | some i =>
    show i < n
    have hmem := List.mem_range.1 (List.mem_of_find?_eq_some hfind)
    omega

/-- Row lookup in the transition matrix never exceeds the row-length
bound. -/
theorem getD_row_length_le {pT : List (List ℚ)} {n : ℕ}
    (hrows : ∀ row ∈ pT, row.length ≤ n) (cur : ℕ) :
    (pT.getD cur []).length ≤ n := by
  rw [List.getD_eq_getElem?_getD]
  cases hg : pT[cur]? with
  | none => simp
  | some row =>
    simp only [Option.getD_some]
    exact hrows row (List.getElem?_mem hg)

/-- All states appended by the transition loop of `markov_sequence`
stay below the alphabet bound. -/
theorem markovLoop_states_lt (pT : List (List ℚ)) (stop : Option ℕ) (xs : ℕ → ℚ)
    {n : ℕ} (hn : 0 < n) (hrows : ∀ row ∈ pT, row.length ≤ n) :
    ∀ fuel cur k, ∀ s ∈ (markovLoop pT stop xs fuel cur k).1, s < n := by
  intro fuel
  induction fuel with
  | zero => intro cur k s hs; simp [markovLoop] at hs
  | succ fuel ih =>
    intro cur k s hs
    rw [markovLoop] at hs
    by_cases hstop : stop = some (sampleIndex (pT.getD cur []) (xs k))
    · rw [if_pos hstop] at hs
      simp at hs
    · rw [if_neg hstop] at hs
      have hs' : s ∈ sampleIndex (pT.getD cur []) (xs k) ::
          (markovLoop pT stop xs fuel (sampleIndex (pT.getD cur []) (xs k)) (k + 1)).1 := hs
      rcases List.mem_cons.1 hs' with rfl | htail
      · exact sampleIndex_lt _ _ (getD_row_length_le hrows cur) hn
      · exact ih _ _ s htail

/-- All states of a `markov_sequence` stay below the alphabet bound. -/
theorem markovSeq_states_lt (pI : List ℚ) (pT : List (List ℚ)) (len : ℕ)
    (stop : Option ℕ) (xs : ℕ → ℚ) (k : ℕ) {n : ℕ} (hn : 0 < n)
    (hpI : pI.length ≤ n) (hrows : ∀ row ∈ pT, row.length ≤ n) :
    ∀ s ∈ (markovSeq pI pT len stop xs k).1, s < n := by
  intro s hs
  rw [markovSeq] at hs
  by_cases hstop : stop = some (sampleIndex pI (xs k))
  · rw [if_pos hstop] at hs
    simp at hs
  · rw [if_neg hstop] at hs
    have hs' : s ∈ sampleIndex pI (xs k) ::
        (markovLoop pT stop xs (len - 1) (sampleIndex pI (xs k)) (k + 1)).1 := hs
    rcases List.mem_cons.1 hs' with rfl | htail
    · exact sampleIndex_lt _ _ hpI hn
    · exact markovLoop_states_lt pT stop xs hn hrows _ _ _ s htail

/-- A state below the alphabet length maps to an alphabet symbol. -/
theorem seqToString_mem (chars : List Char) (seq : List ℕ)
    (hseq : ∀ s ∈ seq, s < chars.length) :
    ∀ c ∈ seqToString chars seq, c ∈ chars := by
  intro c hc
  rw [seqToString] at hc
  obtain ⟨s, hs, rfl⟩ := List.mem_map.1 hc
  rw [List.getD_eq_getElem?_getD, List.getElem?_eq_getElem (hseq s hs)]
  exact List.getElem_mem _

/-- Every symbol of every brute-force string is an alphabet member. -/
theorem brute_closure (chars : List Char) :
    ∀ len, ∀ s ∈ stringGenerationBrute chars len, ∀ c ∈ s, c ∈ chars := by
  intro len
  induction len with
  | zero =>
    intro s hs c hc
    rw [stringGenerationBrute] at hs
    simp at hs
    subst hs
    simp at hc
  | succ n ih =>
    intro s hs c hc
    rw [stringGenerationBrute] at hs
    obtain ⟨d, hd, t, ht, rfl⟩ := mem_prependAll.1 hs
    rcases List.mem_cons.1 hc with rfl | hc'
    · exact hd
    · exact ih t ht c hc'

/-- Every symbol appended by the uniform-random scan is an alphabet
member (whatever the ratios). -/
theorem randomString_closure (chars : List Char) (ratios : List ℚ) (xs : ℕ → ℚ) :
    ∀ len k, ∀ c ∈ randomString chars ratios xs k len, c ∈ chars := by
  intro len
  induction len with
  | zero => intro k c hc; simp [randomString] at hc
  | succ n ih =>
    intro k c hc
    rw [randomString] at hc
    cases heq : pickSymbol? chars ratios (xs k) with
    | none =>
      rw [heq] at hc
      exact ih (k + 1) c hc
    | some d =>
      rw [heq] at hc
      rcases List.mem_cons.1 hc with rfl | hc'
      · rw [pickSymbol?] at heq
        obtain ⟨i, _, hget⟩ := Option.bind_eq_some.1 heq
        exact List.get?_mem hget
      · exact ih (k + 1) c hc'

/-- Every symbol emitted by the structured state machine is one of the
hard-coded `'t'`, `'p'`, `'a'`. -/
theorem structGo_closure (xs : ℕ → ℚ) :
    ∀ rem j poly, ∀ c ∈ (structGo xs j rem poly).1,
      c ∈ (['t', 'p', 'a'] : List Char) := by
  intro rem
  induction rem with
  | zero => intro j poly c hc; simp [structGo] at hc
  | succ rem ih =>
    intro j poly c hc
    rw [structGo] at hc
    by_cases h1 : rem = 0 ∧ poly ≠ 0
    · rw [if_pos h1] at hc
      simp at hc
      simp [hc]
    · rw [if_neg h1] at hc
      by_cases h2 : poly = 0
      · rw [if_pos h2] at hc
        by_cases hx1 : xs j < 33/100
        · rw [if_pos hx1] at hc
          rcases List.mem_cons.1 hc with rfl | hc'
          · simp
          · exact ih (j + 1) 0 c hc'
        · rw [if_neg hx1] at hc
          by_cases hx2 : xs j < 67/100
          · rw [if_pos hx2] at hc
            rcases List.mem_cons.1 hc with rfl | hc'
            · simp
            · exact ih (j + 1) 0 c hc'
          · rw [if_neg hx2] at hc
            rcases List.mem_cons.1 hc with rfl | hc'
            · simp
            · exact ih (j + 1) 1 c hc'
      · rw [if_neg h2] at hc
        by_cases h3 : poly = 1
        · rw [if_pos h3] at hc
          by_cases hx1 : xs j < 50/100
          · rw [if_pos hx1] at hc
            rcases List.mem_cons.1 hc with rfl | hc'
            · simp
            · exact ih (j + 1) 2 c hc'
          · rw [if_neg hx1] at hc
            rcases List.mem_cons.1 hc with rfl | hc'
            · simp
            · exact ih (j + 1) 1 c hc'
        · rw [if_neg h3] at hc
          by_cases hx1 : xs j < 2/5
          · rw [if_pos hx1] at hc
            rcases List.mem_cons.1 hc with rfl | hc'
            · simp
            · exact ih (j + 1) (poly + 1) c hc'
          · rw [if_neg hx1] at hc
            by_cases hx2 : xs j < 4/5
            · rw [if_pos hx2] at hc
              rcases List.mem_cons.1 hc with rfl | hc'
              · simp
              · exact ih (j + 1) poly c hc'
            · rw [if_neg hx2] at hc
              rcases List.mem_cons.1 hc with rfl | hc'
              · simp
              · exact ih (j + 1) 0 c hc'

/-- Closure of every word produced by the plain Markov generator. -/
theorem markovStringsGo_closure (chars : List Char) (pI : List ℚ)
    (pT : List (List ℚ)) (len : ℕ) (xs : ℕ → ℚ)
    (hchars : chars ≠ []) (hpI : pI.length ≤ chars.length)
    (hrows : ∀ row ∈ pT, row.length ≤ chars.length) :
    ∀ number k, ∀ s ∈ markovStringsGo chars pI pT len xs number k,
      ∀ c ∈ s, c ∈ chars := by
  have hn : 0 < chars.length := List.length_pos.2 hchars
  intro number
  induction number with
  | zero => intro k s hs; simp [markovStringsGo] at hs
  | succ n ih =>
    intro k s hs
    rw [markovStringsGo] at hs
    rcases List.mem_cons.1 hs with rfl | hs'
    · exact seqToString_mem chars _
        (markovSeq_states_lt pI pT len none xs k hn hpI hrows)
    · exact ih _ s hs'

/-- Closure of one budget sentence, up to the hard-coded marker `'a'`. -/
theorem budgetSentence_closure (chars : List Char) (pI : List ℚ)
    (pT : List (List ℚ)) (numChars : ℕ) (xs py : ℕ → ℚ)
    (hchars : chars ≠ []) (hpI : pI.length ≤ chars.length)
    (hrows : ∀ row ∈ pT, row.length ≤ chars.length) :
    ∀ rem k m, ∀ c ∈ (budgetSentence chars pI pT numChars xs py rem k m).1,
      c ∈ chars ∨ c = 'a' := by
  have hn : 0 < chars.length := List.length_pos.2 hchars
  intro rem
  induction rem with
  | zero => intro k m c hc; simp [budgetSentence] at hc
  | succ rem ih =>
    intro k m c hc
    rw [budgetSentence] at hc
    simp only at hc
    have hword : ∀ d ∈ seqToString chars (markovSeq pI pT numChars none xs k).1,
        d ∈ chars :=
      seqToString_mem chars _ (markovSeq_states_lt pI pT numChars none xs k hn hpI hrows)
    have hwrap : ∀ d ∈ budgetWrap (seqToString chars (markovSeq pI pT numChars none xs k).1),
        d ∈ chars ∨ d = 'a' := by
      intro d hd
      rw [budgetWrap] at hd
      rcases List.mem_cons.1 hd with rfl | hd'
      · exact Or.inr rfl
      · rcases List.mem_append.1 hd' with hd'' | hd''
        · exact Or.inl (hword d
            ((List.dropLast_sublist _).subset ((List.dropLast_sublist _).subset hd'')))
        · simp at hd''
          exact Or.inr hd''
    rcases List.mem_append.1 hc with hc' | hc'
    · by_cases hcond : 50/100 < py m ∨ rem = 0
      · rw [if_pos hcond] at hc'
        exact hwrap c hc'
      · rw [if_neg hcond] at hc'
        exact Or.inl (hword c hc')
    · exact ih _ _ c hc'

/-- Closure of the structured outer loop: only `'t'`, `'p'`, `'a'`. -/
theorem structuredStringsGo_closure (xs : ℕ → ℚ) (len : ℕ) :
    ∀ number j, ∀ s ∈ structuredStringsGo xs len number j,
      ∀ c ∈ s, c ∈ (['t', 'p', 'a'] : List Char) := by
  intro number
  induction number with
  | zero => intro j s hs; simp [structuredStringsGo] at hs
  | succ n ih =>
    intro j s hs
    rw [structuredStringsGo] at hs
    rcases List.mem_cons.1 hs with rfl | hs'
    · exact structGo_closure xs len j 0
    · exact ih _ s hs'

/-- Closure of the budget outer loop, up to the marker `'a'`. -/
theorem budgetStringsGo_closure (chars : List Char) (pI : List ℚ)
    (pT : List (List ℚ)) (numWords numChars : ℕ) (xs py : ℕ → ℚ)
    (hchars : chars ≠ []) (hpI : pI.length ≤ chars.length)
    (hrows : ∀ row ∈ pT, row.length ≤ chars.length) :
    ∀ n k m, ∀ s ∈ budgetStringsGo chars pI pT numWords numChars xs py n k m,
      ∀ c ∈ s, c ∈ chars ∨ c = 'a' := by
  intro n
  induction n with
  | zero => intro k m s hs; simp [budgetStringsGo] at hs
  | succ n ih =>
    intro k m s hs
    rw [budgetStringsGo] at hs
    rcases List.mem_cons.1 hs with rfl | hs'
    · exact budgetSentence_closure chars pI pT numChars xs py hchars hpI hrows
        numWords k m
    · exact ih _ _ s hs'

/-- C3, amended.  Alphabet closure holds for the brute, uniform-random
and plain Markov generators; the structured generator ignores its
`characters` argument and emits only the fixed symbols `'t'`, `'p'`,
`'a'`; the budgeted Markov generator emits alphabet symbols plus the
hard-coded run marker `'a'` it wraps words with.  (Closure as claimed
therefore holds for the latter two only when the configured alphabet
contains those fixed symbols.) -/
theorem alphabet_closure_amended :
    (∀ (chars : List Char) (len : ℕ), ∀ s ∈ stringGenerationBrute chars len,
        ∀ c ∈ s, c ∈ chars) ∧
      (∀ (chars : List Char) (number len : ℕ) (ratiosOpt : Option (List ℚ))
          (xs : ℕ → ℚ),
        ∀ s ∈ stringGenerationRandom chars number len ratiosOpt xs,
          ∀ c ∈ s, c ∈ chars) ∧
      (∀ (number len : ℕ) (xs : ℕ → ℚ),
        ∀ s ∈ stringGenerationStructured number len xs,
          ∀ c ∈ s, c ∈ (['t', 'p', 'a'] : List Char)) ∧
      (∀ (chars : List Char) (number len : ℕ) (pI : List ℚ)
          (pT : List (List ℚ)) (xs : ℕ → ℚ),
        chars ≠ [] → pI.length ≤ chars.length →
        (∀ row ∈ pT, row.length ≤ chars.length) →
        ∀ s ∈ stringGenerationMarkov chars number len pI pT xs,
          ∀ c ∈ s, c ∈ chars) ∧
      (∀ (chars : List Char) (numSentences numWords numChars : ℕ)
          (pI : List ℚ) (pT : List (List ℚ)) (xs py : ℕ → ℚ),
        chars ≠ [] → pI.length ≤ chars.length →
        (∀ row ∈ pT, row.length ≤ chars.length) →
        ∀ s ∈ stringGenerationMarkovBudget chars numSentences numWords numChars
            pI pT xs py,
          ∀ c ∈ s, c ∈ chars ∨ c = 'a') := by
  refine ⟨fun chars len => brute_closure chars len, ?_, ?_, ?_, ?_⟩
  · intro chars number len ratiosOpt xs s hs c hc
    rw [stringGenerationRandom] at hs
    obtain ⟨i0, _, rfl⟩ := List.mem_map.1 hs
    exact randomString_closure chars _ xs len (i0 * len) c hc
  · intro number len xs s hs c hc
    rw [stringGenerationStructured] at hs
    exact structuredStringsGo_closure xs len number 0 s hs c hc
  · intro chars number len pI pT xs hchars hpI hrows s hs c hc
    rw [stringGenerationMarkov] at hs
    refine markovStringsGo_closure chars _ _ len xs hchars ?_ ?_ number 0 s hs c hc
    · simp [normalizeRow, hpI]
    · intro row hrow
      obtain ⟨r, hr, rfl⟩ := List.mem_map.1 hrow
      simp [normalizeRow]
      exact hrows r hr
  · intro chars numSentences numWords numChars pI pT xs py hchars hpI hrows s hs c hc
    rw [stringGenerationMarkovBudget] at hs
    have hpI' : (normalizeRow pI).length ≤ chars.length := by
      simp [normalizeRow, hpI]
    have hrows' : ∀ row ∈ pT.map normalizeRow, row.length ≤ chars.length := by
      intro row hrow
      obtain ⟨r, hr, rfl⟩ := List.mem_map.1 hrow
      simp [normalizeRow]
      exact hrows r hr
    exact budgetStringsGo_closure chars _ _ numWords numChars xs py hchars hpI' hrows'
      numSentences 0 0 s hs c hc

/-- Witness for `alphabet_closure_amended`: the plain Markov generator
over the alphabet `t, p` with a 2-state chain satisfies the closure
hypotheses and its concrete single generated word is alphabet-closed. -/
theorem alphabet_closure_amended_witness :
    (['t', 'p'] : List Char) ≠ [] ∧
      ([1/2, 1/2] : List ℚ).length ≤ (['t', 'p'] : List Char).length ∧
      (∀ row ∈ ([[3/5, 2/5], [2/5, 3/5]] : List (List ℚ)),
        row.length ≤ (['t', 'p'] : List Char).length) ∧
      (∀ s ∈ stringGenerationMarkov ['t', 'p'] 1 1 [1/2, 1/2]
          [[3/5, 2/5], [2/5, 3/5]] (fun _ => 0),
        ∀ c ∈ s, c ∈ (['t', 'p'] : List Char)) := by
  have h1 : (['t', 'p'] : List Char) ≠ [] := by decide
  have h2 : ([1/2, 1/2] : List ℚ).length ≤ (['t', 'p'] : List Char).length := by
    norm_num
  have h3 : ∀ row ∈ ([[3/5, 2/5], [2/5, 3/5]] : List (List ℚ)),
      row.length ≤ (['t', 'p'] : List Char).length := by
    intro row hrow
    rcases List.mem_cons.1 hrow with rfl | hrow'
    · norm_num
    · rcases List.mem_cons.1 hrow' with rfl | hrow''
      · norm_num
      · simp at hrow''
  exact ⟨h1, h2, h3,
    alphabet_closure_amended.2.2.2.1 ['t', 'p'] 1 1 [1/2, 1/2]
      [[3/5, 2/5], [2/5, 3/5]] (fun _ => 0) h1 h2 h3⟩

/-! ## C5 : brute-force exhaustive generation -/

/-- One product level multiplies the number of strings by the
alphabet size. -/
theorem prependAll_length (cs : List Char) (ts : List (List Char)) :
    (prependAll cs ts).length = cs.length * ts.length := by
  induction cs with
  | nil => simp [prependAll]
  | cons c rest ih =>
    simp [prependAll, ih, Nat.succ_mul, Nat.add_comm]

/-- One product level preserves distinctness. -/
theorem prependAll_nodup {cs : List Char} {ts : List (List Char)}
    (hcs : cs.Nodup) (hts : ts.Nodup) : (prependAll cs ts).Nodup := by
  induction cs with
  | nil => simp [prependAll]
  | cons c rest ih =>
    rw [prependAll, List.nodup_append]
    refine ⟨hts.map (fun t₁ t₂ h => by injection h), ih hcs.of_cons, ?_⟩
    intro x hx hx'
    rcases List.mem_map.1 hx with ⟨t, _, rfl⟩
    rcases mem_prependAll.1 hx' with ⟨d, hd, t', _, heq⟩
    injection heq with h1 _
    rw [List.nodup_cons] at hcs
    exact hcs.1 (h1 ▸ hd)

/-- One product level preserves lexicographic sortedness: blocks are
internally sorted by the tail order and separated by the head order. -/
theorem prependAll_pairwise {r : Char → Char → Prop} {cs : List Char}
    {ts : List (List Char)} (hcs : cs.Pairwise r)
    (hts : ts.Pairwise (List.Lex r)) :
    (prependAll cs ts).Pairwise (List.Lex r) := by
  induction cs with
  | nil => simp [prependAll]
  | cons c rest ih =>
    rw [prependAll, List.pairwise_append]
    rw [List.pairwise_cons] at hcs
    refine ⟨?_, ih hcs.2, ?_⟩
    · rw [List.pairwise_map]
      exact hts.imp (fun h => List.Lex.cons h)
    · intro x hx y hy
      rcases List.mem_map.1 hx with ⟨t, _, rfl⟩
      rcases mem_prependAll.1 hy with ⟨d, hd, t', _, rfl⟩
      exact List.Lex.rel (hcs.1 d hd)

/-- A duplicate-free alphabet is strictly sorted by its own symbol
positions. -/
theorem nodup_pairwise_indexOf {chars : List Char} (h : chars.Nodup) :
    chars.Pairwise (fun a b => chars.indexOf a < chars.indexOf b) := by
  rw [List.pairwise_iff_get]
  intro i j hij
  rw [List.get_eq_getElem, List.get_eq_getElem,
    List.indexOf_getElem h i.1 i.2, List.indexOf_getElem h j.1 j.2]
  exact hij

/-- C5.  Over any duplicate-free alphabet, `string_generation_brute`
yields exactly `|alphabet| ^ length` strings, all distinct, in strictly
increasing lexicographic order induced by the alphabet's symbol order
(the order comparing symbols by their position in the alphabet). -/
theorem brute_force_exhaustive (chars : List Char) (len : ℕ) (h : chars.Nodup) :
    (stringGenerationBrute chars len).length = chars.length ^ len ∧
      (stringGenerationBrute chars len).Nodup ∧
      (stringGenerationBrute chars len).Pairwise
        (List.Lex (fun a b => chars.indexOf a < chars.indexOf b)) := by
  induction len with
  | zero => simp [stringGenerationBrute]
  | succ n ih =>
    refine ⟨?_, ?_, ?_⟩
    · rw [stringGenerationBrute, prependAll_length, ih.1, pow_succ, Nat.mul_comm]
    · exact prependAll_nodup h ih.2.1
    · exact prependAll_pairwise (nodup_pairwise_indexOf h) ih.2.2

/-- Witness for `brute_force_exhaustive`: the concrete scenario of the
claim, alphabet `a, t, p` in that order with length `2`, including the
full enumeration `aa, at, ap, ta, tt, tp, pa, pt, pp` in order. -/
theorem brute_force_exhaustive_witness :
    (['a', 't', 'p'] : List Char).Nodup ∧
      stringGenerationBrute ['a', 't', 'p'] 2 =
        [['a', 'a'], ['a', 't'], ['a', 'p'],
          ['t', 'a'], ['t', 't'], ['t', 'p'],
          ['p', 'a'], ['p', 't'], ['p', 'p']] ∧
      ((stringGenerationBrute ['a', 't', 'p'] 2).length = 3 ^ 2 ∧
        (stringGenerationBrute ['a', 't', 'p'] 2).Nodup ∧
        (stringGenerationBrute ['a', 't', 'p'] 2).Pairwise
          (List.Lex (fun a b =>
            (['a', 't', 'p'] : List Char).indexOf a <
              (['a', 't', 'p'] : List Char).indexOf b))) :=
  ⟨by decide, by decide, brute_force_exhaustive ['a', 't', 'p'] 2 (by decide)⟩

/-! ## C7 : uniform-random generation -/

/-- Specification of the inner cumulative-weight scan: when the
weights total at least `1` and the draw lies in `[0, 1)`, the scan
returns the first index whose cumulative-weight interval contains the
draw. -/
theorem pickIndex?_spec {n : ℕ} {ratios : List ℚ} {x : ℚ}
    (hn : ratios.length = n) (hsum : 1 ≤ ratios.sum) (hx0 : 0 ≤ x) (hx1 : x < 1) :
    ∃ i, i < n ∧ pickIndex? n ratios x = some i ∧
      (ratios.take i).sum ≤ x ∧ x < (ratios.take (i + 1)).sum := by
  have hn1 : 0 < n := by
    rcases Nat.eq_zero_or_pos n with h0 | h0
    · exfalso
      subst h0
      rw [List.length_eq_zero] at hn
      rw [hn] at hsum
      norm_num at hsum
    · exact h0
  have hlastp : x < (ratios.take n).sum := by
    rw [← hn, List.take_length]
    exact lt_of_lt_of_le hx1 hsum
  have hfind : (pickIndex? n ratios x).isSome := by
    rw [pickIndex?, List.find?_isSome]
    refine ⟨n - 1, List.mem_range.2 (by omega), ?_⟩
    simp only [decide_eq_true_eq]
    have hshift : n - 1 + 1 = n := by omega
    rw [hshift]
    exact hlastp
  obtain ⟨i, hieq⟩ := Option.isSome_iff_exists.1 hfind
  have hspec := hieq
  rw [pickIndex?, List.find?_eq_some_iff_getElem] at hspec
  obtain ⟨hp, i0, hi0, hval, hmin⟩ := hspec
  rw [List.getElem_range] at hval
  subst hval
  rw [List.length_range] at hi0
  refine ⟨i0, hi0, hieq, ?_, by simpa using hp⟩
  cases i0 with
  | zero => simpa using hx0
  | succ m =>
    have hm := hmin m (by omega)
    rw [List.getElem_range] at hm
    simp only [Bool.not_eq_true', decide_eq_false_iff_not, not_lt] at hm
    exact hm

/-- Specification of one yielded string of the uniform-random
generator: exactly `len` symbols, the `j`-th chosen as the alphabet
member whose cumulative-weight interval contains the `j`-th draw. -/
theorem randomString_spec (chars : List Char) (ratios : List ℚ) (xs : ℕ → ℚ)
    (hlen : ratios.length = chars.length) (hsum : 1 ≤ ratios.sum)
    (hx : ∀ k, 0 ≤ xs k ∧ xs k < 1) :
    ∀ len k, (randomString chars ratios xs k len).length = len ∧
      ∀ j, j < len → ∃ i, i < chars.length ∧
        (randomString chars ratios xs k len)[j]? = chars[i]? ∧
        (ratios.take i).sum ≤ xs (k + j) ∧ xs (k + j) < (ratios.take (i + 1)).sum := by
  intro len
  induction len with
  | zero => exact fun k => ⟨rfl, fun j hj => absurd hj (by omega)⟩
  | succ n ih =>
    intro k
    obtain ⟨i, hilt, hpick, hlow, hhigh⟩ := pickIndex?_spec hlen hsum (hx k).1 (hx k).2
    have hsym : pickSymbol? chars ratios (xs k) = some (chars.get ⟨i, hilt⟩) := by
      rw [pickSymbol?, hpick]
      simp [List.get?_eq_get hilt]
    have hred : randomString chars ratios xs k (n + 1) =
        chars.get ⟨i, hilt⟩ :: randomString chars ratios xs (k + 1) n := by
      rw [randomString, hsym]
    rw [hred]
    refine ⟨by simp [(ih (k + 1)).1], ?_⟩
    intro j hj
    cases j with
    | zero =>
      refine ⟨i, hilt, ?_, by simpa using hlow, by simpa using hhigh⟩
      simp [List.getElem?_eq_getElem hilt, List.get_eq_getElem]
    | succ m =>
      obtain ⟨i', hi', hg, hl, hh⟩ := (ih (k + 1)).2 m (by omega)
      refine ⟨i', hi', by simpa using hg, ?_, ?_⟩
      · have harith : k + (m + 1) = k + 1 + m := by omega
        rw [harith]
        exact hl
      · have harith : k + (m + 1) = k + 1 + m := by omega
        rw [harith]
        exact hh

/-- C7, amended.  For every alphabet, every `number`, every `length`
and every positive weight vector over the alphabet whose entries sum
to *at least* `1` — in particular to exactly `1`, as the uniform
default does — and draws in `[0, 1)`, the generator yields `number`
strings of exactly `length` symbols each, where each symbol is the
alphabet member whose cumulative-weight interval contains that
position's independent draw.  (If the weights sum to less than `1`, a
draw at or beyond the total emits no symbol and the string comes up
short, which is the counterexample to the claim as stated.) -/
theorem uniform_random_generation_amended (chars : List Char) (number len : ℕ)
    (ratiosOpt : Option (List ℚ)) (xs : ℕ → ℚ)
    (hlen : (effectiveRatios chars ratiosOpt).length = chars.length)
    (_hpos : ∀ r ∈ effectiveRatios chars ratiosOpt, 0 < r)
    (hsum : 1 ≤ (effectiveRatios chars ratiosOpt).sum)
    (hx : ∀ k, 0 ≤ xs k ∧ xs k < 1) :
    (stringGenerationRandom chars number len ratiosOpt xs).length = number ∧
      ∀ s ∈ stringGenerationRandom chars number len ratiosOpt xs,
        s.length = len ∧
        ∀ j, j < len → ∃ i, i < chars.length ∧
          s[j]? = chars[i]? ∧
          ∃ x, 0 ≤ x ∧ x < 1 ∧
            ((effectiveRatios chars ratiosOpt).take i).sum ≤ x ∧
            x < ((effectiveRatios chars ratiosOpt).take (i + 1)).sum := by
  constructor
  · simp [stringGenerationRandom]
  · intro s hs
    rw [stringGenerationRandom] at hs
    obtain ⟨i0, _, rfl⟩ := List.mem_map.1 hs
    have hspec := randomString_spec chars (effectiveRatios chars ratiosOpt) xs
      hlen hsum hx len (i0 * len)
    refine ⟨hspec.1, ?_⟩
    intro j hj
    obtain ⟨i, hi, hg, hl, hh⟩ := hspec.2 j hj
    exact ⟨i, hi, hg, xs (i0 * len + j), (hx _).1, (hx _).2, hl, hh⟩

/-- Witness for `uniform_random_generation_amended`: alphabet `t, p`
with no explicit weights (the uniform default `[1/2, 1/2]`), one
string of one symbol, all draws `1/4`. -/
theorem uniform_random_generation_amended_witness :
    ((effectiveRatios ['t', 'p'] none).length = 2 ∧
      (∀ r ∈ effectiveRatios ['t', 'p'] none, 0 < r) ∧
      1 ≤ (effectiveRatios ['t', 'p'] none).sum) ∧
    ((stringGenerationRandom ['t', 'p'] 1 1 none (fun _ => 1/4)).length = 1 ∧
      ∀ s ∈ stringGenerationRandom ['t', 'p'] 1 1 none (fun _ => 1/4),
        s.length = 1 ∧
        ∀ j, j < 1 → ∃ i, i < (['t', 'p'] : List Char).length ∧
          s[j]? = (['t', 'p'] : List Char)[i]? ∧
          ∃ x, 0 ≤ x ∧ x < 1 ∧
            ((effectiveRatios ['t', 'p'] none).take i).sum ≤ x ∧
            x < ((effectiveRatios ['t', 'p'] none).take (i + 1)).sum) := by
  have h1 : (effectiveRatios ['t', 'p'] none).length = 2 := by
    norm_num [effectiveRatios, uniformRatios]
  have h2 : ∀ r ∈ effectiveRatios ['t', 'p'] none, 0 < r := by
    intro r hr
    simp only [effectiveRatios, uniformRatios] at hr
    norm_num at hr
    rw [hr]
    norm_num
  have h3 : 1 ≤ (effectiveRatios ['t', 'p'] none).sum := by
    norm_num [effectiveRatios, uniformRatios]
  have h4 : ∀ k : ℕ, 0 ≤ ((fun _ => 1/4 : ℕ → ℚ) k) ∧ ((fun _ => 1/4 : ℕ → ℚ) k) < 1 := by
    intro k
    norm_num
  exact ⟨⟨h1, h2, h3⟩,
    uniform_random_generation_amended ['t', 'p'] 1 1 none (fun _ => 1/4) h1 h2 h3 h4⟩

/-! ## C8 : structured run closure -/

/-- Every iteration of the structured per-string loop emits exactly one
character. -/
theorem structGo_length (xs : ℕ → ℚ) :
    ∀ rem j poly, ((structGo xs j rem poly).1).length = rem := by
  intro rem
  induction rem with
  | zero => intro j poly; simp [structGo]
  | succ rem ih =>
    intro j poly
    rw [structGo]
    by_cases h1 : rem = 0 ∧ poly ≠ 0
    · simp [h1]
    · simp only [if_neg h1]
      by_cases h2 : poly = 0
      · by_cases hx1 : xs j < 33/100
        · simp [h2, hx1, ih]
        · by_cases hx2 : xs j < 67/100 <;> simp [h2, hx1, hx2, ih]
      · by_cases h3 : poly = 1
        · by_cases hx1 : xs j < 50/100 <;> simp [h2, h3, hx1, ih]
        · by_cases hx1 : xs j < 2/5
          · simp [h2, h3, hx1, ih]
          · by_cases hx2 : xs j < 4/5 <;> simp [h2, h3, hx1, hx2, ih]

/-- Parity invariant of the structured loop: an `'a'` is emitted
exactly when the machine toggles between "no run open"
(`polyedge_length = 0`) and "run open", so the emitted `'a'` count is
even iff the loop ends in the same openness state it started in. -/
theorem structGo_parity (xs : ℕ → ℚ) :
    ∀ rem j poly,
      (Even (((structGo xs j rem poly).1).count 'a') ↔
        (poly = 0 ↔ (structGo xs j rem poly).2.1 = 0)) := by
  intro rem
  induction rem with
  | zero => intro j poly; simp [structGo]
  | succ rem ih =>
    intro j poly
    rw [structGo]
    by_cases h1 : rem = 0 ∧ poly ≠ 0
    · rw [if_pos h1]
      simp only [List.count_cons_self, List.count_nil, Nat.zero_add]
      simp [h1.2]
    · rw [if_neg h1]
      by_cases h2 : poly = 0
      · rw [if_pos h2]
        by_cases hx1 : xs j < 33/100
        · rw [if_pos hx1]
          simp only [List.count_cons_of_ne (by decide : ('a' : Char) ≠ 't')]
          rw [ih (j + 1) 0]
          simp [h2]
        · rw [if_neg hx1]
          by_cases hx2 : xs j < 67/100
          · rw [if_pos hx2]
            simp only [List.count_cons_of_ne (by decide : ('a' : Char) ≠ 'p')]
            rw [ih (j + 1) 0]
            simp [h2]
          · rw [if_neg hx2]
            simp only [List.count_cons_self]
            rw [Nat.even_add_one, ih (j + 1) 1]
            simp [h2]
      · rw [if_neg h2]
        by_cases h3 : poly = 1
        · rw [if_pos h3]
          by_cases hx1 : xs j < 50/100
          · rw [if_pos hx1]
            simp only [List.count_cons_of_ne (by decide : ('a' : Char) ≠ 't')]
            rw [ih (j + 1) 2]
            simp [h2]
          · rw [if_neg hx1]
            simp only [List.count_cons_of_ne (by decide : ('a' : Char) ≠ 'p')]
            rw [ih (j + 1) 1]
            simp [h2]
        · rw [if_neg h3]
          by_cases hx1 : xs j < 2/5
          · rw [if_pos hx1]
            simp only [List.count_cons_of_ne (by decide : ('a' : Char) ≠ 't')]
            rw [ih (j + 1) (poly + 1)]
            simp [h2]
          · rw [if_neg hx1]
            by_cases hx2 : xs j < 4/5
            · rw [if_pos hx2]
              simp only [List.count_cons_of_ne (by decide : ('a' : Char) ≠ 'p')]
              rw [ih (j + 1) poly]
            · rw [if_neg hx2]
              simp only [List.count_cons_self]
              rw [Nat.even_add_one, ih (j + 1) 0]
              simp [h2]

/-- Consing onto a nonempty list keeps its last element. -/
theorem getLast?_cons_ne_nil {α : Type} (c : α) {l : List α} (h : l ≠ []) :
    (c :: l).getLast? = l.getLast? := by
  cases l with
  | nil => exact absurd rfl h
  | cons b t => rw [List.getLast?_cons_cons]

/-- If the structured loop runs for at least one position and ends
with a run still open, the run was opened by the very last emitted
symbol: the string ends in `'a'`. -/
theorem structGo_last (xs : ℕ → ℚ) :
    ∀ rem j poly, 1 ≤ rem → (structGo xs j rem poly).2.1 ≠ 0 →
      ((structGo xs j rem poly).1).getLast? = some 'a' := by
  intro rem
  induction rem with
  | zero => intro j poly h; omega
  | succ rem ih =>
    intro j poly _ hq
    rw [structGo] at hq ⊢
    have hne : 0 < rem → ∀ p : ℕ, ((structGo xs (j + 1) rem p).1) ≠ [] := by
      intro hrem p hnil
      have hl := structGo_length xs rem (j + 1) p
      rw [hnil] at hl
      simp at hl
      omega
    by_cases h1 : rem = 0 ∧ poly ≠ 0
    · rw [if_pos h1] at hq
      exact absurd rfl hq
    · rw [if_neg h1] at hq ⊢
      by_cases h2 : poly = 0
      · rw [if_pos h2] at hq ⊢
        by_cases hx1 : xs j < 33/100
        · rw [if_pos hx1] at hq ⊢
          rcases Nat.eq_zero_or_pos rem with hrem | hrem
          · subst hrem
            rw [structGo] at hq
            exact absurd rfl hq
          · show ('t' :: (structGo xs (j + 1) rem 0).1).getLast? = some 'a'
            rw [getLast?_cons_ne_nil _ (hne hrem 0)]
            exact ih (j + 1) 0 hrem hq
        · rw [if_neg hx1] at hq ⊢
          by_cases hx2 : xs j < 67/100
          · rw [if_pos hx2] at hq ⊢
            rcases Nat.eq_zero_or_pos rem with hrem | hrem
            · subst hrem
              rw [structGo] at hq
              exact absurd rfl hq
            · show ('p' :: (structGo xs (j + 1) rem 0).1).getLast? = some 'a'
              rw [getLast?_cons_ne_nil _ (hne hrem 0)]
              exact ih (j + 1) 0 hrem hq
          · rw [if_neg hx2] at hq ⊢
            rcases Nat.eq_zero_or_pos rem with hrem | hrem
            · subst hrem
              show ('a' :: (structGo xs (j + 1) 0 1).1).getLast? = some 'a'
              rw [structGo]
              rfl
            · show ('a' :: (structGo xs (j + 1) rem 1).1).getLast? = some 'a'
              rw [getLast?_cons_ne_nil _ (hne hrem 1)]
              exact ih (j + 1) 1 hrem hq
      · have hrem : 0 < rem := by
          rcases Nat.eq_zero_or_pos rem with hrem | hrem
          · exact absurd ⟨hrem, h2⟩ h1
          · exact hrem
        rw [if_neg h2] at hq ⊢
        by_cases h3 : poly = 1
        · rw [if_pos h3] at hq ⊢
          by_cases hx1 : xs j < 50/100
          · rw [if_pos hx1] at hq ⊢
            show ('t' :: (structGo xs (j + 1) rem 2).1).getLast? = some 'a'
            rw [getLast?_cons_ne_nil _ (hne hrem 2)]
            exact ih (j + 1) 2 hrem hq
          · rw [if_neg hx1] at hq ⊢
            show ('p' :: (structGo xs (j + 1) rem 1).1).getLast? = some 'a'
            rw [getLast?_cons_ne_nil _ (hne hrem 1)]
            exact ih (j + 1) 1 hrem hq
        · rw [if_neg h3] at hq ⊢
          by_cases hx1 : xs j < 2/5
          · rw [if_pos hx1] at hq ⊢
            show ('t' :: (structGo xs (j + 1) rem (poly + 1)).1).getLast? = some 'a'
            rw [getLast?_cons_ne_nil _ (hne hrem (poly + 1))]
            exact ih (j + 1) (poly + 1) hrem hq
          · rw [if_neg hx1] at hq ⊢
            by_cases hx2 : xs j < 4/5
            · rw [if_pos hx2] at hq ⊢
              show ('p' :: (structGo xs (j + 1) rem poly).1).getLast? = some 'a'
              rw [getLast?_cons_ne_nil _ (hne hrem poly)]
              exact ih (j + 1) poly hrem hq
            · rw [if_neg hx2] at hq ⊢
              show ('a' :: (structGo xs (j + 1) rem 0).1).getLast? = some 'a'
              rw [getLast?_cons_ne_nil _ (hne hrem 0)]
              exact ih (j + 1) 0 hrem hq

/-- C8, amended.  Every run that is still open when the loop reaches
the final position is force-closed there, but the final position
itself can *open* a new run: a string yielded by the structured
generator contains an even number of `'a'` symbols unless its last
symbol is a run-opening `'a'`, in which case the count is odd. -/
theorem structured_run_closure_amended (number len : ℕ) (xs : ℕ → ℚ) :
    ∀ s ∈ stringGenerationStructured number len xs,
      Even (s.count 'a') ∨
        (Odd (s.count 'a') ∧ s.getLast? = some 'a') := by
  have key : ∀ j, Even (((structGo xs j len 0).1).count 'a') ∨
      (Odd (((structGo xs j len 0).1).count 'a') ∧
        ((structGo xs j len 0).1).getLast? = some 'a') := by
    intro j
    by_cases hq : (structGo xs j len 0).2.1 = 0
    · left
      exact (structGo_parity xs len j 0).2 (by simp [hq])
    · right
      constructor
      · rw [← Nat.not_even_iff_odd]
        intro hev
        exact hq ((structGo_parity xs len j 0).1 hev |>.1 rfl)
      · rcases Nat.eq_zero_or_pos len with hlen | hlen
        · subst hlen
          simp [structGo] at hq
        · exact structGo_last xs len j 0 hlen hq
  unfold stringGenerationStructured
  generalize 0 = j0
  induction number generalizing j0 with
  | zero => intro s hs; simp [structuredStringsGo] at hs
  | succ n ih =>
    intro s hs
    rw [structuredStringsGo] at hs
    rcases List.mem_cons.1 hs with h | h
    · subst h; exact key j0
    · exact ih _ s h

/-- Witness for `structured_run_closure_amended` at a concrete
generated string. -/
theorem structured_run_closure_amended_witness :
    ['t'] ∈ stringGenerationStructured 1 1 (fun _ => 0) ∧
      (Even ((['t'] : List Char).count 'a') ∨
        (Odd ((['t'] : List Char).count 'a') ∧
          (['t'] : List Char).getLast? = some 'a')) := by
  have hmem : ['t'] ∈ stringGenerationStructured 1 1 (fun _ => 0) := by
    norm_num [stringGenerationStructured, structuredStringsGo, structGo]
  exact ⟨hmem, structured_run_closure_amended 1 1 (fun _ => 0) ['t'] hmem⟩

/-! ## C8 : structured run closure, counterexample -/

/-- C8, counterexample.  A run can be opened at the final position:
with `length = 1` and a draw of `0.7` (`≥ 0.67`), the only position
starts with `polyedge_length = 0`, so the force-close branch is not
taken, the machine emits an opening `'a'`, and the yielded string
`"a"` contains an odd number of `'a'` symbols. -/
theorem structured_string_odd_run_count :
    structuredString (fun _ => 7/10) 1 0 = ['a'] ∧
      ¬ Even ((['a'] : List Char).count 'a') := by
  refine ⟨?_, by decide⟩
  norm_num [structuredString, structGo]

end CompasQuad
